import Mathlib

/-!
Verification of the crypt-sync encoding pipeline and path-encryption scheme.

This file gives a shallow embedding of the core of the `crypt-sync`
repository: the byte-pull helper and `min_mkdir_set` (`src/util.rs`), the
AES-256-CFB128 stream-cipher stages generated by the `cryptor!` macro
(`src/encoder/cryptor.rs`), the binary-to-text codec
(`src/encoder/text_encoder.rs`, `src/encoder/text_decoder.rs`), the drain
loop `write_all_to` (`src/crypt/crypt_encoder.rs`), the password hasher
(`src/hasher.rs`) and the basename/path ciphertext maps
(`src/crypt/crypt_syncer.rs`).

External primitives (the AES-256 block function of `openssl`, PBKDF2 of
`ring`, the zstd codec of the `zstd` crate) are abstracted as explicit
function parameters; the repository code built around them is embedded
faithfully.  Bytes are `Nat`s (real byte values are below 256, but none of
the embedded code depends on that bound).  Streams are finite byte lists.
A `read` returning `none` models a Rust call that does not return `Ok`
(an arithmetic-overflow panic, a failed assertion, or an `Err`).
-/

namespace CryptSync

/-- A byte, as moved through `std::io::Read` buffers. -/
abbrev Byte := Nat

/-- Rust `usize` subtraction in a debug build: `a - b` panics when `b > a`.
Returns `none` on underflow. -/
def checkedSub (a b : Nat) : Option Nat :=
  if b ≤ a then some (a - b) else none

/-! ## The CFB-128 cipher state

`openssl::symm::Crypter` for `Cipher::aes_256_cfb128()` maintains a 16-byte
feedback register and an offset into the current keystream block
(`CRYPTO_cfb128_encrypt` with 128-bit segments).  The AES-256 block
function itself is external to the repository and appears as the abstract
parameter `E` (the block permutation under one fixed key).  One byte is
processed as: refresh the register through `E` when the offset is 0, xor
the byte with the register byte at the offset, and store the *ciphertext*
byte back into the register.  `Crypter::update` for this stream mode emits
exactly one output byte per input byte, and `finalize` emits nothing. -/

/-- State of one `Crypter` for AES-256-CFB128: feedback register and
offset into the current keystream block. -/
structure CfbSt where
  ivec : List Byte
  off : Nat
deriving DecidableEq, Repr

/-- `INITIALIZATION_VECTOR` of `src/encoder/cryptor.rs` line 16. -/
def initIv : List Byte := [0, 1, 2, 3, 4, 5, 6, 7, 8, 9, 10, 11, 12, 13, 14, 15]

/-- The cipher state directly after `Crypter::new`. -/
def initCfb : CfbSt := ⟨initIv, 0⟩

/-- One byte through CFB-128.  `enc = true` for `Mode::Encrypt`.  The
ciphertext byte (the output when encrypting, the input when decrypting) is
fed back into the register. -/
def cfbByte (E : List Byte → List Byte) (enc : Bool) (st : CfbSt) (b : Byte) :
    Byte × CfbSt :=
  let iv := if st.off = 0 then E st.ivec else st.ivec
  let ks := iv.getD st.off 0
  let o := b ^^^ ks
  let c := if enc then o else b
  (o, ⟨iv.set st.off c, (st.off + 1) % 16⟩)

/-- `Crypter::update`: process a whole input buffer, threading the state.
For this stream mode the output has exactly the length of the input. -/
def cfbUpdate (E : List Byte → List Byte) (enc : Bool) : CfbSt → List Byte → List Byte × CfbSt
  | st, [] => ([], st)
  | st, b :: bs =>
    let p := cfbByte E enc st b
    let q := cfbUpdate E enc p.2 bs
    (p.1 :: q.1, q.2)

theorem cfbUpdate_length (E : List Byte → List Byte) (enc : Bool) :
    ∀ (st : CfbSt) (bs : List Byte), (cfbUpdate E enc st bs).1.length = bs.length := by
  intro st bs
  induction bs generalizing st with
  | nil => rfl
  | cons b bs ih => simp [cfbUpdate, ih]

theorem cfbUpdate_append (E : List Byte → List Byte) (enc : Bool) :
    ∀ (st : CfbSt) (xs ys : List Byte),
      cfbUpdate E enc st (xs ++ ys) =
        ((cfbUpdate E enc st xs).1 ++ (cfbUpdate E enc (cfbUpdate E enc st xs).2 ys).1,
         (cfbUpdate E enc (cfbUpdate E enc st xs).2 ys).2) := by
  intro st xs ys
  induction xs generalizing st with
  | nil => simp [cfbUpdate]
  | cons x xs ih => simp [cfbUpdate, ih]

/-- Decrypting one byte that was just encrypted from the same state gives
the byte back and resynchronises the two states. -/
theorem cfbByte_roundtrip (E : List Byte → List Byte) (st : CfbSt) (b : Byte) :
    cfbByte E false st (cfbByte E true st b).1 = (b, (cfbByte E true st b).2) := by
  simp [cfbByte, Nat.xor_cancel_right]

/-- CFB round trip: running the ciphertext of `cfbUpdate` in encrypt mode
through `cfbUpdate` in decrypt mode, from the same starting state,
reproduces the plaintext and the same final state. -/
theorem cfbUpdate_roundtrip (E : List Byte → List Byte) :
    ∀ (st : CfbSt) (bs : List Byte),
      cfbUpdate E false st (cfbUpdate E true st bs).1 = (bs, (cfbUpdate E true st bs).2) := by
  intro st bs
  induction bs generalizing st with
  | nil => rfl
  | cons b bs ih =>
    simp only [cfbUpdate]
    have hb := cfbByte_roundtrip E st b
    rw [hb]
    simp only [ih (cfbByte E true st b).2]

/-! ## Byte sources and the stream-transformer contract

Every stage of the pipeline implements `std::io::Read`: fill a caller
buffer of length `L`, return the number of bytes written.  We model a
source of state type `σ` as a function from state and buffer length to the
bytes produced and the successor state, `none` standing for a call that
does not return `Ok`. -/

/-- A byte source: Rust `impl Read` as a state-passing function. -/
def ReadFn (σ : Type) := σ → Nat → Option (List Byte × σ)

/-- `impl Read for &[u8]`: reading from an in-memory slice yields
`min L remaining` bytes. -/
def listRead : ReadFn (List Byte) := fun src L => some (src.take L, src.drop L)

/-- One `std::io::Bytes::next` call: `Bytes` reads one byte at a time
through a length-1 buffer; `Ok(0)` from the inner read becomes `None`. -/
def bytesNext {σ : Type} (read : ReadFn σ) (s : σ) : Option (Option Byte × σ) :=
  match read s 1 with
  | none => none
  | some ([], s') => some (none, s')
  | some (b :: _, s') => some (some b, s')

/-- The byte-collecting loop of `pull` (`src/util.rs` lines 84-89): up to
`n` calls of `Bytes::next`, stopping at the first `None`. -/
def pullGo {σ : Type} (read : ReadFn σ) : Nat → σ → Option (List Byte × σ)
  | 0, s => some ([], s)
  | n + 1, s =>
    match bytesNext read s with
    | none => none
    | some (none, s') => some ([], s')
    | some (some b, s') =>
      match pullGo read n s' with
      | none => none
      | some (bs, s'') => some (b :: bs, s'')

/-- `pull` (`src/util.rs` lines 74-95): try to take `size` bytes from the
source; an empty collection becomes the empty-signal `none`. -/
def pull {σ : Type} (read : ReadFn σ) (s : σ) (size : Nat) :
    Option (Option (List Byte) × σ) :=
  match pullGo read size s with
  | none => none
  | some ([], s') => some (none, s')
  | some (b :: bs, s') => some (some (b :: bs), s')

/-- The single-pass byte-source contract (spec §4.1), as a simulation:
`Inv s R` states that `s` will deliver exactly the byte stream `R`.  A
read with a buffer of length `L ≥ 1` returns some prefix of `R`, nonempty
unless `R` is exhausted, and the successor state delivers the rest.  In
particular a source at end of stream keeps returning 0 bytes. -/
def Sim {σ : Type} (read : ReadFn σ) (Inv : σ → List Byte → Prop) : Prop :=
  ∀ s R, Inv s R → ∀ L, 1 ≤ L →
    ∃ k s', k ≤ L ∧ k ≤ R.length ∧ (R = [] ∨ 1 ≤ k) ∧
      read s L = some (R.take k, s') ∧ Inv s' (R.drop k)

/-- The invariant of an in-memory slice: the state is the stream. -/
def ListInv : List Byte → List Byte → Prop := Eq

theorem listRead_sim : Sim listRead ListInv := by
  intro s R hInv L hL
  cases hInv
  refine ⟨min L s.length, s.drop (min L s.length), Nat.min_le_left _ _,
    Nat.min_le_right _ _, ?_, ?_, rfl⟩
  · rcases s with _ | ⟨b, bs⟩
    · exact Or.inl rfl
    · exact Or.inr (le_min hL (Nat.succ_le_succ (Nat.zero_le _)))
  · rcases Nat.le_total L s.length with h | h
    · rw [Nat.min_eq_left h]
      rfl
    · rw [Nat.min_eq_right h]
      simp [listRead, List.take_of_length_le h, List.take_length,
        List.drop_eq_nil_of_le h, List.drop_length]

/-- The byte-collecting loop over a source satisfying the contract takes
exactly `min n |R|` bytes, one read of length 1 at a time. -/
theorem pullGo_sim {σ : Type} {read : ReadFn σ} {Inv : σ → List Byte → Prop}
    (hsim : Sim read Inv) :
    ∀ (n : Nat) (s : σ) (R : List Byte), Inv s R →
      ∃ s', pullGo read n s = some (R.take (min n R.length), s') ∧
        Inv s' (R.drop (min n R.length)) := by
  intro n
  induction n with
  | zero =>
    intro s R h
    exact ⟨s, by simp [pullGo], by simpa using h⟩
  | succ n ih =>
    intro s R h
    obtain ⟨k, s', hkL, hkR, hprog, hread, hinv⟩ := hsim s R h 1 le_rfl
    rcases hprog with hR | hk
    · subst hR
      have hk0 : k = 0 := Nat.le_zero.mp hkR
      subst hk0
      refine ⟨s', ?_, by simpa using hinv⟩
      simp [pullGo, bytesNext, hread]
    · have hk1 : k = 1 := Nat.le_antisymm hkL hk
      subst hk1
      obtain ⟨r, R', rfl⟩ := List.exists_cons_of_ne_nil
        (List.ne_nil_of_length_pos (Nat.lt_of_lt_of_le Nat.zero_lt_one hkR))
      simp only [List.take_succ_cons, List.take_zero, List.drop_succ_cons,
        List.drop_zero] at hread hinv
      obtain ⟨s'', hpg, hinv'⟩ := ih s' R' hinv
      refine ⟨s'', ?_, ?_⟩
      · simp only [pullGo, bytesNext, hread, hpg, List.length_cons,
          Nat.succ_min_succ, List.take_succ_cons]
      · simpa [Nat.succ_min_succ] using hinv'

/-- `pull` on an exhausted source returns the empty-signal. -/
theorem pull_sim_nil {σ : Type} {read : ReadFn σ} {Inv : σ → List Byte → Prop}
    (hsim : Sim read Inv) (size : Nat) (s : σ) (h : Inv s []) :
    ∃ s', pull read s size = some (none, s') ∧ Inv s' [] := by
  obtain ⟨s', hpg, hinv⟩ := pullGo_sim hsim size s [] h
  exact ⟨s', by simp [pull, hpg], by simpa using hinv⟩

/-- `pull` on a nonempty stream returns `min size |R|` bytes. -/
theorem pull_sim_cons {σ : Type} {read : ReadFn σ} {Inv : σ → List Byte → Prop}
    (hsim : Sim read Inv) (size : Nat) (s : σ) (R : List Byte) (h : Inv s R)
    (hR : R ≠ []) (hsize : 1 ≤ size) :
    ∃ s', pull read s size = some (some (R.take (min size R.length)), s') ∧
      Inv s' (R.drop (min size R.length)) := by
  obtain ⟨s', hpg, hinv⟩ := pullGo_sim hsim size s R h
  have hne : R.take (min size R.length) ≠ [] := by
    intro hnil
    rcases (List.take_eq_nil_iff).mp hnil with h0 | h0
    · have : 1 ≤ min size R.length :=
        le_min hsize (Nat.one_le_iff_ne_zero.mpr (fun hl => hR (List.length_eq_zero.mp hl)))
      omega
    · exact hR h0
  obtain ⟨b, bs, heq⟩ := List.exists_cons_of_ne_nil hne
  exact ⟨s', by rw [pull, hpg, heq], hinv⟩

/-- The drain loop of `write_all_to` (`src/crypt/crypt_encoder.rs` lines
26-46): repeatedly read with the default 4096-byte buffer, appending the
bytes produced, until a read returns 0.  The Rust loop has no fuel; the
`fuel` argument bounds the number of iterations and `none` models a loop
that (within `fuel` iterations) has not finished. -/
def drainLoop {σ : Type} (read : ReadFn σ) : Nat → σ → Option (List Byte)
  | 0, _ => none
  | fuel + 1, s =>
    match read s 4096 with
    | none => none
    | some ([], _) => some []
    | some (b :: bs, s') =>
      match drainLoop read fuel s' with
      | none => none
      | some rest => some ((b :: bs) ++ rest)

/-- `all_to_vec`/`as_vec`/`as_string` (the byte content of the string):
drain the whole transformer stack into one byte vector. -/
def asVec {σ : Type} (read : ReadFn σ) (fuel : Nat) (s : σ) : Option (List Byte) :=
  drainLoop read fuel s

/-- Draining a source that satisfies the contract returns exactly its
stream, given fuel beyond the stream length. -/
theorem asVec_sim {σ : Type} {read : ReadFn σ} {Inv : σ → List Byte → Prop}
    (hsim : Sim read Inv) :
    ∀ (fuel : Nat) (s : σ) (R : List Byte), Inv s R → R.length < fuel →
      asVec read fuel s = some R := by
  intro fuel
  induction fuel with
  | zero => intro s R _ h; omega
  | succ fuel ih =>
    intro s R hinv hlen
    obtain ⟨k, s', hkL, hkR, hprog, hread, hinv'⟩ := hsim s R hinv 4096 (by norm_num)
    rcases hprog with hR | hk
    · subst hR
      simp only [asVec, drainLoop, hread, List.take_nil]
    · have hRne : R ≠ [] :=
        List.ne_nil_of_length_pos (Nat.lt_of_lt_of_le hk hkR)
      have htne : R.take k ≠ [] := by
        intro hnil
        rcases (List.take_eq_nil_iff).mp hnil with h0 | h0
        · omega
        · exact hRne h0
      obtain ⟨b, bs, heq⟩ := List.exists_cons_of_ne_nil htne
      have hrest : asVec read fuel s' = some (R.drop k) := by
        refine ih s' (R.drop k) hinv' ?_
        have := List.length_drop k R
        have h1 : 1 ≤ R.length := Nat.le_trans hk hkR
        omega
      have hfin : b :: (bs ++ List.drop k R) = R := by
        rw [← List.cons_append, ← heq, List.take_append_drop]
      simp only [asVec, drainLoop, hread, heq] at hrest ⊢
      simp only [hrest, List.cons_append, hfin]

/-- A sequence of reads: run the given buffer lengths in order, collecting
each read's bytes. -/
def runReads {σ : Type} (read : ReadFn σ) : List Nat → σ → Option (List (List Byte) × σ)
  | [], s => some ([], s)
  | L :: Ls, s =>
    match read s L with
    | none => none
    | some (out, s') =>
      match runReads read Ls s' with
      | none => none
      | some (outs, s'') => some (out :: outs, s'')

/-- A read of at least one byte of capacity that returns 0 bytes proves the
stream exhausted, and leaves the source exhausted. -/
theorem read_zero_eof {σ : Type} {read : ReadFn σ} {Inv : σ → List Byte → Prop}
    (hsim : Sim read Inv) {s s' : σ} {R : List Byte} {L : Nat}
    (hinv : Inv s R) (hL : 1 ≤ L) (hread : read s L = some ([], s')) :
    R = [] ∧ Inv s' [] := by
  obtain ⟨k, s'', hkL, hkR, hprog, hread', hinv'⟩ := hsim s R hinv L hL
  rw [hread] at hread'
  have hpair := Option.some.inj hread'
  have htake : R.take k = [] := (Prod.mk.injEq _ _ _ _ ▸ hpair).1.symm
  have hs : s'' = s' := (Prod.mk.injEq _ _ _ _ ▸ hpair).2.symm
  have hR : R = [] := by
    rcases hprog with h | h
    · exact h
    · rcases (List.take_eq_nil_iff).mp htake with h0 | h0
      · omega
      · exact h0
  subst hR
  exact ⟨rfl, by rw [← hs]; simpa using hinv'⟩

/-- After end of stream, every further sequence of reads with nonempty
buffers returns 0 bytes each time. -/
theorem runReads_eof {σ : Type} {read : ReadFn σ} {Inv : σ → List Byte → Prop}
    (hsim : Sim read Inv) :
    ∀ (Ls : List Nat) (s : σ), Inv s [] → (∀ L ∈ Ls, 1 ≤ L) →
      ∃ s', runReads read Ls s = some (Ls.map (fun _ => ([] : List Byte)), s') ∧
        Inv s' [] := by
  intro Ls
  induction Ls with
  | nil => intro s h _; exact ⟨s, rfl, h⟩
  | cons L Ls ih =>
    intro s h hpos
    obtain ⟨k, s', hkL, hkR, _, hread, hinv'⟩ :=
      hsim s [] h L (hpos L (List.mem_cons_self _ _))
    have hk0 : k = 0 := Nat.le_zero.mp hkR
    subst hk0
    obtain ⟨s'', hrun, hinv''⟩ := ih s' (by simpa using hinv')
      (fun L' hL' => hpos L' (List.mem_cons_of_mem _ hL'))
    refine ⟨s'', ?_, hinv''⟩
    simp only [runReads, hread, List.take_nil, hrun, List.map_cons]

/-! ## The Encryptor and Decryptor stages

`src/encoder/cryptor.rs`: the `cryptor!` macro generates `Encryptor` and
`Decryptor`, differing only in the `openssl::symm::Mode`.  The struct holds
the cipher block size, the `Crypter`, and the inner source wrapped in
`std::io::Bytes`.  `Cipher::aes_256_cfb128()` is a stream mode, whose
reported block size is 1. -/

/-- `Cipher::aes_256_cfb128().block_size()`: stream-mode ciphers report a
block size of 1. -/
def cfbBlockSize : Nat := 1

/-- An `Encryptor`/`Decryptor`: cipher state plus the wrapped source. -/
structure Cryptor (σ : Type) where
  cfb : CfbSt
  source : σ
deriving DecidableEq

/-- Outcome of a Rust constructor call: `Ok`, `Err`, or a panic (a failed
`assert!` or an arithmetic overflow in a debug build). -/
inductive RustCall (α : Type) where
  | ok (a : α)
  | errVal
  | assertFail
deriving DecidableEq

/-- `Encryptor::new` / `Decryptor::new` (`src/encoder/cryptor.rs` lines
43-59): `assert!(key_hash.len() >= 32)` panics on a short key; otherwise
the `Crypter` is built from `&key_hash[..32]` and the constant IV.
`Crypter::new` with a 32-byte key and 16-byte IV for this cipher does not
fail, so the `Err` path (`err!`) is not reachable. -/
def cryptorNew {σ : Type} (keyHash : List Byte) (src : σ) : RustCall (Cryptor σ) :=
  if 32 ≤ keyHash.length then .ok ⟨initCfb, src⟩ else .assertFail

/-- The `read` of the `cryptor!`-generated stages (`src/encoder/cryptor.rs`
lines 66-91).  `input_size = max(1, target.len() - block_size)` — the
subtraction is the debug-mode `usize` subtraction, so a zero-length target
panics (`none`).  The inner `assert_eq!(1, self.block_size)` taken when
`input_size == 1` holds, because the block size is 1.  The guard
`L < buf.length` is the output-capacity assertion of `Crypter::update`
(for a stream mode it requires `output.len() >= input.len()`); the branch
on `update` returning 0 re-pulls, asserts the empty-signal, and finalizes
(which for CFB emits no bytes). -/
def cryptorRead {σ : Type} (E : List Byte → List Byte) (enc : Bool) (read : ReadFn σ) :
    ReadFn (Cryptor σ) :=
  fun c L =>
    match checkedSub L cfbBlockSize with
    | none => none
    | some d =>
      match pull read c.source (max 1 d) with
      | none => none
      | some (none, s') => some ([], ⟨c.cfb, s'⟩)
      | some (some buf, s') =>
        if L < buf.length then none
        else
          let out := cfbUpdate E enc c.cfb buf
          if out.1.length = 0 then
            match pull read s' (max 1 d) with
            | some (none, s'') => some ([], ⟨out.2, s''⟩)
            | _ => none
          else some (out.1, ⟨out.2, s'⟩)

/-- The stream delivered by an Encryptor/Decryptor stage: the CFB image of
whatever its inner source delivers. -/
def CryptorInv {σ : Type} (E : List Byte → List Byte) (enc : Bool)
    (Inv : σ → List Byte → Prop) : Cryptor σ → List Byte → Prop :=
  fun c R' => ∃ R, Inv c.source R ∧ R' = (cfbUpdate E enc c.cfb R).1

/-- An Encryptor/Decryptor over a contract-satisfying source satisfies the
contract, delivering the CFB image of the inner stream. -/
theorem cryptor_sim {σ : Type} {read : ReadFn σ} {Inv : σ → List Byte → Prop}
    (E : List Byte → List Byte) (enc : Bool) (hsim : Sim read Inv) :
    Sim (cryptorRead E enc read) (CryptorInv E enc Inv) := by
  intro c R' hInv L hL
  obtain ⟨R, hsrc, rfl⟩ := hInv
  have hsub : checkedSub L cfbBlockSize = some (L - 1) := by
    simp [checkedSub, cfbBlockSize, hL]
  have hin1 : 1 ≤ max 1 (L - 1) := le_max_left _ _
  have hinL : max 1 (L - 1) ≤ L := by omega
  by_cases hR : R = []
  · subst hR
    obtain ⟨s', hpull, hinv'⟩ := pull_sim_nil hsim (max 1 (L - 1)) c.source hsrc
    refine ⟨0, ⟨c.cfb, s'⟩, Nat.zero_le _, Nat.zero_le _, Or.inl (by simp [cfbUpdate]),
      ?_, ⟨[], hinv', by simp [cfbUpdate]⟩⟩
    simp [cryptorRead, hsub, hpull, cfbUpdate]
  · obtain ⟨s', hpull, hinv'⟩ :=
      pull_sim_cons hsim (max 1 (L - 1)) c.source R hsrc hR hin1
    have hmR : min (max 1 (L - 1)) R.length ≤ R.length := min_le_right _ _
    have hm1 : 1 ≤ min (max 1 (L - 1)) R.length :=
      le_min hin1 (Nat.one_le_iff_ne_zero.mpr
        (fun hl => hR (List.length_eq_zero.mp hl)))
    have hlen : (R.take (min (max 1 (L - 1)) R.length)).length =
        min (max 1 (L - 1)) R.length := by
      rw [List.length_take]
      exact Nat.min_eq_left hmR
    have hnotlt : ¬ (L < (R.take (min (max 1 (L - 1)) R.length)).length) := by
      rw [hlen]
      have := min_le_left (max 1 (L - 1)) R.length
      omega
    have hupdlen :
        (cfbUpdate E enc c.cfb (R.take (min (max 1 (L - 1)) R.length))).1.length =
        min (max 1 (L - 1)) R.length := by
      rw [cfbUpdate_length, hlen]
    have hsplit := cfbUpdate_append E enc c.cfb
      (R.take (min (max 1 (L - 1)) R.length)) (R.drop (min (max 1 (L - 1)) R.length))
    rw [List.take_append_drop] at hsplit
    have hfst := congrArg Prod.fst hsplit
    have hsnd := congrArg Prod.snd hsplit
    simp only at hfst hsnd
    refine ⟨min (max 1 (L - 1)) R.length,
      ⟨(cfbUpdate E enc c.cfb (R.take (min (max 1 (L - 1)) R.length))).2, s'⟩,
      le_trans (min_le_left _ _) hinL, ?_, Or.inr hm1, ?_, ?_⟩
    · rw [cfbUpdate_length]
      exact hmR
    · have htk : (cfbUpdate E enc c.cfb R).1.take (min (max 1 (L - 1)) R.length) =
          (cfbUpdate E enc c.cfb (R.take (min (max 1 (L - 1)) R.length))).1 := by
        rw [hfst]
        exact List.take_left' hupdlen
      have hne0 : ¬ ((cfbUpdate E enc c.cfb
          (R.take (min (max 1 (L - 1)) R.length))).1.length = 0) := by
        rw [hupdlen]
        omega
      simp [cryptorRead, hsub, hpull, hnotlt, hne0, htk]
      omega
    · refine ⟨R.drop (min (max 1 (L - 1)) R.length), hinv', ?_⟩
      rw [hfst]
      simpa using List.drop_left' hupdlen

/-! ## The binary-to-text codec

`src/encoder/text_encoder.rs`: `TextEncoder` holds the encoding, the
encode closure, the block size (`log2` of the alphabet size for the
encoder, eight times that for the decoder in
`src/encoder/text_decoder.rs`), the `Bytes`-wrapped source and the two
FIFO buffers.  `buf_size` defaults to 2048; `src_pull_size = buf_size -
block_size` and `src_buf_pull_size = buf_size * block_size / 8`
(`text_encoder.rs` lines 100-116). -/

/-- Construction-time parameters of a `TextEncoder`: the encode closure
and the three sizes. -/
structure TextParams where
  encFn : List Byte → List Byte
  blockSize : Nat
  srcPullSize : Nat
  srcBufPullSize : Nat

/-- The mutable state of a `TextEncoder`: the two FIFO buffers and the
wrapped source. -/
structure TextEnc (σ : Type) where
  srcBuf : List Byte
  encBuf : List Byte
  source : σ
deriving DecidableEq

/-- `TextEncoder::new_custom`: both buffers start empty. -/
def textEncNew {σ : Type} (src : σ) : TextEnc σ := ⟨[], [], src⟩

/-- `replenish_src_buf` (`text_encoder.rs` lines 134-143): pull up to
`src_pull_size` bytes from the source onto the back of `src_buf`,
returning how many arrived (0 = end of source). -/
def replenishSrcBuf {σ : Type} (P : TextParams) (read : ReadFn σ) (t : TextEnc σ) :
    Option (Nat × TextEnc σ) :=
  match pull read t.source P.srcPullSize with
  | none => none
  | some (none, s') => some (0, { t with source := s' })
  | some (some bs, s') => some (bs.length, { t with srcBuf := t.srcBuf ++ bs, source := s' })

/-- `replenish_enc_buf` (`text_encoder.rs` lines 149-173): take the
largest block-aligned prefix of `src_buf` (refilling `src_buf` first and
falling back to the unaligned residue when fewer than `block_size` bytes
are buffered), bounded by `src_buf_pull_size`, through the encode closure
onto the back of `enc_buf`. -/
def replenishEncBuf {σ : Type} (P : TextParams) (read : ReadFn σ) (t : TextEnc σ) :
    Option (TextEnc σ) :=
  let blockCount := t.srcBuf.length / P.blockSize
  let step : Option (Nat × TextEnc σ) :=
    if blockCount = 0 then
      match replenishSrcBuf P read t with
      | none => none
      | some (pulled, t') => some (t.srcBuf.length + pulled, t')
    else some (blockCount * P.blockSize, t)
  match step with
  | none => none
  | some (bytesToPull, t') =>
    let bp := min bytesToPull P.srcBufPullSize
    if bp = 0 then some t'
    else
      some { t' with
        srcBuf := t'.srcBuf.drop bp,
        encBuf := t'.encBuf ++ P.encFn (t'.srcBuf.take bp) }

/-- `impl Read for TextEncoder` (`text_encoder.rs` lines 182-208): refill
`enc_buf` when it is empty (refilling `src_buf` first when that too is
empty), then hand over `min (enc_buf.len) L` bytes; a zero-length target
returns 0 bytes after the refill. -/
def textRead {σ : Type} (P : TextParams) (read : ReadFn σ) : ReadFn (TextEnc σ) :=
  fun t L =>
    let pre : Option (TextEnc σ) :=
      if t.encBuf.length = 0 then
        match (if t.srcBuf.length = 0 then replenishSrcBuf P read t else some (0, t)) with
        | none => none
        | some (_, t₁) => replenishEncBuf P read t₁
      else some t
    match pre with
    | none => none
    | some t₂ =>
      match L with
      | 0 => some ([], t₂)
      | _ + 1 =>
        some (t₂.encBuf.take (min t₂.encBuf.length L),
          { t₂ with encBuf := t₂.encBuf.drop (min t₂.encBuf.length L) })

/-- The facts about a `TextParams` instance and a validity predicate `V`
on byte streams under which the codec satisfies the stream contract.
`V` restricts the streams the encode closure accepts (everything for an
encoder; even-length hex for the base16 decoder). -/
structure TextOk (P : TextParams) (V : List Byte → Prop) : Prop where
  bs_pos : 1 ≤ P.blockSize
  sp_pos : 1 ≤ P.srcPullSize
  bs_dvd_sp : P.blockSize ∣ P.srcPullSize
  bs_dvd_bp : P.blockSize ∣ P.srcBufPullSize
  bs_le_bp : P.blockSize ≤ P.srcBufPullSize
  enc_nil : P.encFn [] = []
  enc_append : ∀ xs ys, P.blockSize ∣ xs.length →
    P.encFn (xs ++ ys) = P.encFn xs ++ P.encFn ys
  enc_ne : ∀ xs, V xs → xs ≠ [] → P.encFn xs ≠ []
  v_nil : V []
  v_drop : ∀ xs n, V xs → P.blockSize ∣ n → V (xs.drop n)
  v_take : ∀ xs n, V xs → P.blockSize ∣ n → V (xs.take n)

/-- The stream delivered by a `TextEncoder`: the already-encoded buffer,
followed by the encoding of the raw buffer and the inner stream. -/
def TextInv {σ : Type} (P : TextParams) (V : List Byte → Prop)
    (Inv : σ → List Byte → Prop) : TextEnc σ → List Byte → Prop :=
  fun t R' => ∃ Rin, Inv t.source Rin ∧
    R' = t.encBuf ++ P.encFn (t.srcBuf ++ Rin) ∧
    (Rin ≠ [] → P.blockSize ∣ t.srcBuf.length) ∧
    V (t.srcBuf ++ Rin)

/-- A divisor of both arguments divides their minimum. -/
theorem dvd_min_of_dvd {a m n : Nat} (hm : a ∣ m) (hn : a ∣ n) : a ∣ min m n := by
  rcases Nat.le_total m n with h | h
  · rw [Nat.min_eq_left h]; exact hm
  · rw [Nat.min_eq_right h]; exact hn

/-- Moving one aligned (or stream-final) chunk of `bp` raw bytes through
the encode closure preserves the codec invariant and produces a nonempty
encoded buffer. -/
theorem chunk_inv {σ : Type} {Inv : σ → List Byte → Prop}
    (P : TextParams) (V : List Byte → Prop) (hok : TextOk P V)
    (sb rin : List Byte) (src : σ)
    (hsrc : Inv src rin) (hV : V (sb ++ rin)) (bp : Nat)
    (h1 : 1 ≤ bp) (hle : bp ≤ sb.length) (hdvd : P.blockSize ∣ bp)
    (halign : rin ≠ [] → P.blockSize ∣ (sb.length - bp)) :
    TextInv P V Inv ⟨sb.drop bp, P.encFn (sb.take bp), src⟩ (P.encFn (sb ++ rin)) ∧
      P.encFn (sb.take bp) ≠ [] := by
  have hlentk : (sb.take bp).length = bp := by
    rw [List.length_take]
    exact Nat.min_eq_left hle
  have htkapp : (sb ++ rin).take bp = sb.take bp := List.take_append_of_le_length hle
  have hdrapp : (sb ++ rin).drop bp = sb.drop bp ++ rin := List.drop_append_of_le_length hle
  have hsplitstream : sb ++ rin = sb.take bp ++ (sb.drop bp ++ rin) := by
    rw [← List.append_assoc, List.take_append_drop]
  have hsplit : P.encFn (sb ++ rin) = P.encFn (sb.take bp) ++ P.encFn (sb.drop bp ++ rin) := by
    rw [hsplitstream]
    exact hok.enc_append _ _ (by rw [hlentk]; exact hdvd)
  constructor
  · refine ⟨rin, hsrc, ?_, ?_, ?_⟩
    · exact hsplit
    · intro hrin
      simpa [List.length_drop] using halign hrin
    · rw [← hdrapp]
      exact hok.v_drop _ _ hV hdvd
  · refine hok.enc_ne _ ?_ ?_
    · rw [← htkapp]
      exact hok.v_take _ _ hV hdvd
    · intro hnil
      rw [hnil] at hlentk
      simp at hlentk
      omega

/-- `replenish_src_buf` on an exhausted source pulls nothing. -/
theorem rsrc_nil {σ : Type} {read : ReadFn σ} {Inv : σ → List Byte → Prop}
    (hsim : Sim read Inv) (P : TextParams) (sb eb : List Byte) (src : σ)
    (hsrc : Inv src []) :
    ∃ s', replenishSrcBuf P read ⟨sb, eb, src⟩ = some (0, ⟨sb, eb, s'⟩) ∧ Inv s' [] := by
  obtain ⟨s', hpull, hinv'⟩ := pull_sim_nil hsim P.srcPullSize src hsrc
  exact ⟨s', by simp [replenishSrcBuf, hpull], hinv'⟩

/-- `replenish_src_buf` on a live source appends `min src_pull_size |Rin|`
bytes to the back of `src_buf`. -/
theorem rsrc_cons {σ : Type} {read : ReadFn σ} {Inv : σ → List Byte → Prop}
    (hsim : Sim read Inv) (P : TextParams) (hsp : 1 ≤ P.srcPullSize)
    (sb eb : List Byte) (src : σ) (Rin : List Byte)
    (hsrc : Inv src Rin) (hrin : Rin ≠ []) :
    ∃ s', replenishSrcBuf P read ⟨sb, eb, src⟩ =
        some ((Rin.take (min P.srcPullSize Rin.length)).length,
          ⟨sb ++ Rin.take (min P.srcPullSize Rin.length), eb, s'⟩) ∧
      Inv s' (Rin.drop (min P.srcPullSize Rin.length)) := by
  obtain ⟨s', hpull, hinv'⟩ := pull_sim_cons hsim P.srcPullSize src Rin hsrc hrin hsp
  exact ⟨s', by simp [replenishSrcBuf, hpull], hinv'⟩

/-- `replenish_enc_buf` called on a state with empty `enc_buf` (as `read`
does) yields a state that still delivers the same stream, with a nonempty
`enc_buf` whenever the stream is nonempty. -/
theorem renc_spec {σ : Type} {read : ReadFn σ} {Inv : σ → List Byte → Prop}
    (hsim : Sim read Inv) (P : TextParams) (V : List Byte → Prop) (hok : TextOk P V)
    (sb₁ : List Byte) (src₁ : σ) (Rin₁ : List Byte)
    (hsrc : Inv src₁ Rin₁) (hV : V (sb₁ ++ Rin₁))
    (halign : Rin₁ ≠ [] → P.blockSize ∣ sb₁.length)
    (hempty : sb₁ = [] → Rin₁ = []) :
    ∃ t₂, replenishEncBuf P read ⟨sb₁, [], src₁⟩ = some t₂ ∧
      TextInv P V Inv t₂ (P.encFn (sb₁ ++ Rin₁)) ∧
      (P.encFn (sb₁ ++ Rin₁) ≠ [] → t₂.encBuf ≠ []) := by
  by_cases hsb : sb₁ = []
  · -- (i) src_buf empty, hence (post-refill) source exhausted: no-op
    subst hsb
    have hrin : Rin₁ = [] := hempty rfl
    subst hrin
    obtain ⟨s'', hrs, hinv''⟩ := rsrc_nil hsim P [] [] src₁ hsrc
    refine ⟨⟨[], [], s''⟩, ?_, ?_, ?_⟩
    · simp [replenishEncBuf, hrs]
    · exact ⟨[], hinv'', by simp, by simp, by simpa using hok.v_nil⟩
    · intro hne
      exact absurd (by simpa using hok.enc_nil) hne
  · by_cases hrin : Rin₁ = []
    · subst hrin
      by_cases hbc : P.blockSize ≤ sb₁.length
      · -- (iii) aligned blocks available, source exhausted
        have hbc1 : 1 ≤ sb₁.length / P.blockSize :=
          (Nat.one_le_div_iff (Nat.lt_of_lt_of_le Nat.zero_lt_one hok.bs_pos)).mpr hbc
        have hmul_le : sb₁.length / P.blockSize * P.blockSize ≤ sb₁.length :=
          Nat.div_mul_le_self _ _
        have hbs_le_mul : P.blockSize ≤ sb₁.length / P.blockSize * P.blockSize :=
          Nat.le_mul_of_pos_left _ hbc1
        have hbp1 : 1 ≤ min (sb₁.length / P.blockSize * P.blockSize) P.srcBufPullSize :=
          le_trans hok.bs_pos (le_min hbs_le_mul hok.bs_le_bp)
        have hbple : min (sb₁.length / P.blockSize * P.blockSize) P.srcBufPullSize ≤
            sb₁.length := le_trans (min_le_left _ _) hmul_le
        have hdvd : P.blockSize ∣
            min (sb₁.length / P.blockSize * P.blockSize) P.srcBufPullSize :=
          dvd_min_of_dvd ⟨sb₁.length / P.blockSize, Nat.mul_comm _ _⟩ hok.bs_dvd_bp
        obtain ⟨hti, hne⟩ := chunk_inv P V hok sb₁ [] src₁ hsrc hV
          (min (sb₁.length / P.blockSize * P.blockSize) P.srcBufPullSize)
          hbp1 hbple hdvd (fun h => absurd rfl h)
        refine ⟨_, ?_, hti, fun _ => hne⟩
        have hbc0 : ¬ (sb₁.length / P.blockSize = 0) := by omega
        simp only [replenishEncBuf, hbc0, if_false, Nat.ne_of_gt hbp1]
        simp [Nat.ne_of_gt hbp1, Nat.pos_iff_ne_zero.mp hbp1]
      · -- (iv) fewer than block_size bytes left, source exhausted: flush residue
        push_neg at hbc
        have hbc0 : sb₁.length / P.blockSize = 0 := Nat.div_eq_of_lt hbc
        obtain ⟨s'', hrs, hinv''⟩ := rsrc_nil hsim P sb₁ [] src₁ hsrc
        have hlen1 : 1 ≤ sb₁.length :=
          Nat.one_le_iff_ne_zero.mpr (fun h => hsb (List.length_eq_zero.mp h))
        have hbple : min sb₁.length P.srcBufPullSize = sb₁.length :=
          Nat.min_eq_left (le_trans (Nat.le_of_lt hbc) hok.bs_le_bp)
        refine ⟨⟨[], P.encFn sb₁, s''⟩, ?_, ?_, ?_⟩
        · simp only [replenishEncBuf, hbc0, if_true, hrs, Nat.add_zero, hbple]
          have : ¬ (sb₁.length = 0) := by omega
          simp [this, List.drop_length, List.take_length]
        · refine ⟨[], hinv'', ?_, by simp, by simpa using hok.v_nil⟩
          simp [hok.enc_nil]
        · intro _
          simp only [ne_eq]
          exact hok.enc_ne sb₁ (by simpa using hV) hsb
    · -- (ii) source still live: the invariant gives block alignment
      have hdv : P.blockSize ∣ sb₁.length := halign hrin
      have hlen1 : 1 ≤ sb₁.length :=
        Nat.one_le_iff_ne_zero.mpr (fun h => hsb (List.length_eq_zero.mp h))
      have hbs_le : P.blockSize ≤ sb₁.length := Nat.le_of_dvd (by omega) hdv
      have hbc1 : 1 ≤ sb₁.length / P.blockSize :=
        (Nat.one_le_div_iff (Nat.lt_of_lt_of_le Nat.zero_lt_one hok.bs_pos)).mpr hbs_le
      have hmul : sb₁.length / P.blockSize * P.blockSize = sb₁.length :=
        Nat.div_mul_cancel hdv
      have hbp1 : 1 ≤ min sb₁.length P.srcBufPullSize :=
        le_trans hok.bs_pos (le_min hbs_le hok.bs_le_bp)
      have hdvdbp : P.blockSize ∣ min sb₁.length P.srcBufPullSize :=
        dvd_min_of_dvd hdv hok.bs_dvd_bp
      obtain ⟨hti, hne⟩ := chunk_inv P V hok sb₁ Rin₁ src₁ hsrc hV
        (min sb₁.length P.srcBufPullSize) hbp1 (min_le_left _ _) hdvdbp
        (fun _ => Nat.dvd_sub' hdv hdvdbp)
      refine ⟨_, ?_, hti, fun _ => hne⟩
      have hbc0 : ¬ (sb₁.length / P.blockSize = 0) := by omega
      simp only [replenishEncBuf, hbc0, if_false, hmul]
      simp [Nat.pos_iff_ne_zero.mp hbp1]

/-- A `TextEncoder` over a contract-satisfying source satisfies the
contract, delivering the encoding of the inner stream. -/
theorem text_sim {σ : Type} {read : ReadFn σ} {Inv : σ → List Byte → Prop}
    (hsim : Sim read Inv) (P : TextParams) (V : List Byte → Prop) (hok : TextOk P V) :
    Sim (textRead P read) (TextInv P V Inv) := by
  intro t R' hinv L hL
  obtain ⟨l, rfl⟩ : ∃ l, L = l + 1 := ⟨L - 1, by omega⟩
  obtain ⟨sb, eb, src⟩ := t
  obtain ⟨Rin, hsrc, hR', halign, hV⟩ := hinv
  simp only at hsrc hR' halign hV
  have hpre : ∃ t₂,
      (if (TextEnc.mk sb eb src).encBuf.length = 0 then
        match (if (TextEnc.mk sb eb src).srcBuf.length = 0
               then replenishSrcBuf P read ⟨sb, eb, src⟩
               else some (0, ⟨sb, eb, src⟩)) with
        | none => none
        | some (_, t₁) => replenishEncBuf P read t₁
       else some ⟨sb, eb, src⟩) = some t₂ ∧
      TextInv P V Inv t₂ R' ∧ (R' ≠ [] → t₂.encBuf ≠ []) := by
    by_cases heb : eb = []
    · subst heb
      by_cases hsb : sb = []
      · subst hsb
        by_cases hrin : Rin = []
        · subst hrin
          obtain ⟨s', hrs, hinv'⟩ := rsrc_nil hsim P [] [] src hsrc
          obtain ⟨t₂, hre, hti, hne⟩ := renc_spec hsim P V hok [] s' [] hinv'
            (by simpa using hV) (fun h => absurd rfl h) (fun _ => rfl)
          refine ⟨t₂, ?_, ?_, ?_⟩
          · simpa [hrs] using hre
          · rw [show R' = P.encFn ([] ++ []) from by simpa using hR']
            exact hti
          · rw [show R' = P.encFn ([] ++ []) from by simpa using hR']
            exact hne
        · obtain ⟨s', hrs, hinv'⟩ := rsrc_cons hsim P hok.sp_pos [] [] src Rin hsrc hrin
          simp only [List.nil_append] at hrs
          have hm1 : 1 ≤ min P.srcPullSize Rin.length :=
            le_min hok.sp_pos (Nat.one_le_iff_ne_zero.mpr
              (fun h => hrin (List.length_eq_zero.mp h)))
          have hmlen : (Rin.take (min P.srcPullSize Rin.length)).length =
              min P.srcPullSize Rin.length := by
            rw [List.length_take]
            exact Nat.min_eq_left (min_le_right _ _)
          have hal' : Rin.drop (min P.srcPullSize Rin.length) ≠ [] →
              P.blockSize ∣ (Rin.take (min P.srcPullSize Rin.length)).length := by
            intro hdrop
            rw [hmlen]
            have hmin : min P.srcPullSize Rin.length = P.srcPullSize := by
              rcases Nat.le_total P.srcPullSize Rin.length with h | h
              · exact Nat.min_eq_left h
              · exfalso
                apply hdrop
                rw [Nat.min_eq_right h]
                exact List.drop_length _
            rw [hmin]
            exact hok.bs_dvd_sp
          have hemp' : Rin.take (min P.srcPullSize Rin.length) = [] →
              Rin.drop (min P.srcPullSize Rin.length) = [] := by
            intro htake
            exfalso
            rcases (List.take_eq_nil_iff).mp htake with h0 | h0
            · omega
            · exact hrin h0
          obtain ⟨t₂, hre, hti, hne⟩ := renc_spec hsim P V hok
            (Rin.take (min P.srcPullSize Rin.length)) s'
            (Rin.drop (min P.srcPullSize Rin.length)) hinv'
            (by rw [List.take_append_drop]; simpa using hV)
            hal' hemp'
          refine ⟨t₂, ?_, ?_, ?_⟩
          · simpa [hrs] using hre
          · rw [show R' = P.encFn (Rin.take (min P.srcPullSize Rin.length) ++
                Rin.drop (min P.srcPullSize Rin.length)) from by
              rw [List.take_append_drop]; simpa using hR']
            exact hti
          · rw [show R' = P.encFn (Rin.take (min P.srcPullSize Rin.length) ++
                Rin.drop (min P.srcPullSize Rin.length)) from by
              rw [List.take_append_drop]; simpa using hR']
            exact hne
      · have hsb0 : ¬ (sb.length = 0) :=
          fun h => hsb (List.length_eq_zero.mp h)
        obtain ⟨t₂, hre, hti, hne⟩ := renc_spec hsim P V hok sb src Rin hsrc
          (by simpa using hV) (by simpa using halign) (fun h => absurd h hsb)
        refine ⟨t₂, ?_, ?_, ?_⟩
        · simpa [hsb0] using hre
        · rw [show R' = P.encFn (sb ++ Rin) from by simpa using hR']
          exact hti
        · rw [show R' = P.encFn (sb ++ Rin) from by simpa using hR']
          exact hne
    · have heb0 : ¬ (eb.length = 0) := fun h => heb (List.length_eq_zero.mp h)
      refine ⟨⟨sb, eb, src⟩, by simp [heb0], ⟨Rin, hsrc, hR', halign, hV⟩, fun _ => heb⟩
  obtain ⟨t₂, hpre', hti₂, hne₂⟩ := hpre
  obtain ⟨sb₂, eb₂, src₂⟩ := t₂
  obtain ⟨Rin₂, hsrc₂, hR₂', halign₂, hV₂⟩ := hti₂
  simp only at hsrc₂ hR₂' halign₂ hV₂ hne₂
  have hkb : min eb₂.length (l + 1) ≤ eb₂.length := min_le_left _ _
  have hkR : min eb₂.length (l + 1) ≤ R'.length := by
    rw [hR₂', List.length_append]
    omega
  refine ⟨min eb₂.length (l + 1), ⟨sb₂, eb₂.drop (min eb₂.length (l + 1)), src₂⟩,
    min_le_right _ _, hkR, ?_, ?_, ?_⟩
  · by_cases hR'nil : R' = []
    · exact Or.inl hR'nil
    · refine Or.inr (le_min ?_ (by omega))
      have := hne₂ hR'nil
      exact Nat.one_le_iff_ne_zero.mpr (fun h => this (List.length_eq_zero.mp h))
  · have htk : R'.take (min eb₂.length (l + 1)) = eb₂.take (min eb₂.length (l + 1)) := by
      rw [hR₂']
      exact List.take_append_of_le_length hkb
    simp only [textRead, hpre', htk]
  · refine ⟨Rin₂, hsrc₂, ?_, halign₂, hV₂⟩
    simp only
    rw [hR₂', List.drop_append_of_le_length hkb]

/-! ## The concrete base16 alphabet

`TextEncoder::new(source, EncType::BASE16)` — also the default of
`TextEncoder::new_custom` when no encoding is given, which is what
`compose_encoders!(…, TextEncoder => None)` produces — uses the RFC4648
alphabet `"0123456789ABCDEF"` with no padding, block size
`log2 16 = 4`, `buf_size = 2048`. -/

/-- Symbol `i` of the BASE16 alphabet, as a byte. -/
def hexDigit (i : Nat) : Byte := if i < 10 then 48 + i else 55 + i

/-- `data_encoding` BASE16 encoding: each byte to two symbols, high nibble
first (the `% 16` is vacuous for real bytes `< 256`). -/
def enc16 : List Byte → List Byte
  | [] => []
  | b :: bs => hexDigit (b / 16 % 16) :: hexDigit (b % 16) :: enc16 bs

theorem enc16_append : ∀ xs ys : List Byte, enc16 (xs ++ ys) = enc16 xs ++ enc16 ys := by
  intro xs ys
  induction xs with
  | nil => rfl
  | cons b bs ih => simp [enc16, ih]

theorem enc16_length : ∀ xs : List Byte, (enc16 xs).length = 2 * xs.length := by
  intro xs
  induction xs with
  | nil => rfl
  | cons b bs ih => simp [enc16, ih]; omega

theorem enc16_ne : ∀ xs : List Byte, xs ≠ [] → enc16 xs ≠ [] := by
  intro xs h
  cases xs with
  | nil => exact absurd rfl h
  | cons b bs => simp [enc16]

/-- Numeric value of a BASE16 symbol (0 for bytes outside the alphabet;
the decoder is only run on valid symbol streams in this development). -/
def hexVal (c : Byte) : Nat :=
  if 48 ≤ c ∧ c ≤ 57 then c - 48 else if 65 ≤ c ∧ c ≤ 70 then c - 55 else 0

/-- `data_encoding` BASE16 decoding on valid (even-length, in-alphabet)
symbol streams, modelled total. -/
def dec16 : List Byte → List Byte
  | c1 :: c2 :: cs => (16 * hexVal c1 + hexVal c2) :: dec16 cs
  | _ => []

theorem dec16_append_fuel : ∀ (n : Nat) (xs ys : List Byte), xs.length ≤ n →
    2 ∣ xs.length → dec16 (xs ++ ys) = dec16 xs ++ dec16 ys := by
  intro n
  induction n with
  | zero =>
    intro xs ys hlen _
    have : xs = [] := List.length_eq_zero.mp (Nat.le_zero.mp hlen)
    subst this
    simp [dec16]
  | succ n ih =>
    intro xs ys hlen hdvd
    match xs with
    | [] => simp [dec16]
    | [c] => simp at hdvd
    | c1 :: c2 :: cs =>
      simp only [List.cons_append, dec16, List.append_eq]
      rw [ih cs ys (by simp at hlen ⊢; omega) (by simp at hdvd ⊢; omega)]

theorem dec16_append (xs ys : List Byte) (h : 2 ∣ xs.length) :
    dec16 (xs ++ ys) = dec16 xs ++ dec16 ys :=
  dec16_append_fuel xs.length xs ys le_rfl h

theorem dec16_ne : ∀ xs : List Byte, 2 ∣ xs.length → xs ≠ [] → dec16 xs ≠ [] := by
  intro xs hdvd hne
  match xs with
  | [] => exact absurd rfl hne
  | [c] => simp at hdvd
  | c1 :: c2 :: cs => simp [dec16]

/-- The `TextEncoder` parameters for BASE16 (`text_encoder.rs` lines
100-116): block size `log2 16 = 4`, `src_pull_size = 2048 - 4`,
`src_buf_pull_size = 2048 * 4 / 8`. -/
def base16Params : TextParams := ⟨enc16, 4, 2048 - 4, 2048 * 4 / 8⟩

/-- The `TextDecoder` parameters for BASE16 (`text_decoder.rs` lines
44-67): the decode closure, block size `log2 16 * 8 = 32`. -/
def base16DecParams : TextParams := ⟨dec16, 4 * 8, 2048 - 4 * 8, 2048 * (4 * 8) / 8⟩

theorem base16_ok : TextOk base16Params (fun _ => True) :=
  ⟨by decide, by decide, by decide, by decide, by decide, rfl,
   fun xs ys _ => enc16_append xs ys, fun xs _ h => enc16_ne xs h,
   trivial, fun _ _ _ _ => trivial, fun _ _ _ _ => trivial⟩

/-- Valid raw streams for the BASE16 decoder: even length (every symbol
pair decodes to one byte). -/
def EvenLen (xs : List Byte) : Prop := 2 ∣ xs.length

theorem base16dec_ok : TextOk base16DecParams EvenLen := by
  have h32 : base16DecParams.blockSize = 32 := rfl
  refine ⟨by decide, by decide, by decide, by decide, by decide, rfl, ?_, ?_, ?_, ?_, ?_⟩
  · intro xs ys h
    rw [h32] at h
    exact dec16_append xs ys (dvd_trans (by norm_num) h)
  · exact fun xs hv h => dec16_ne xs hv h
  · simp [EvenLen]
  · intro xs n hv hd
    rw [h32] at hd
    simp only [EvenLen, List.length_drop] at hv ⊢
    exact Nat.dvd_sub' hv (dvd_trans (by norm_num) hd)
  · intro xs n hv hd
    rw [h32] at hd
    simp only [EvenLen, List.length_take] at hv ⊢
    exact dvd_min_of_dvd (dvd_trans (by norm_num) hd) hv

/-! ## The zstd stages

`src/encoder/zstd_encoder.rs` and `src/encoder/zstd_decoder.rs` wrap
`zstd::stream::read::Encoder`/`Decoder` and forward `read` verbatim; the
compression itself lives in the external `zstd` crate.  Modelled from the
spec (§4.4): a streaming zstd stage over a byte source delivers the
compressed (resp. decompressed) image of the source's stream; the
compression and decompression functions appear as the abstract parameters
`comp` and `decomp`, with the library round-trip contract as a
hypothesis where a claim needs it. -/

/-- Modelled from the spec: the byte stream of `ZstdEncoder::new(source,
None)` over an in-memory source `B` is the compressed frame of `B`. -/
def zstdEncoderStream (comp : List Byte → List Byte) (B : List Byte) : List Byte :=
  comp B

/-- Modelled from the spec: the stream of `ZstdDecoder` over a
`ZstdEncoder` stage is the decompressed image of the compressed frame. -/
def zstdPipelineState (comp decomp : List Byte → List Byte) (B : List Byte) : List Byte :=
  decomp (zstdEncoderStream comp B)

/-! ## Paths, UTF-8, and the password hasher

A source path is modelled as its list of normal components; the textual
form joins them with `/`.  `path_ciphertexts` only consumes
`Component::Normal`, and the enumeration of a relative source directory
yields exactly such paths.  UTF-8 encoding of components is spelled out so
everything evaluates. -/

/-- A filesystem path as its list of normal components. -/
abbrev FPath := List String

/-- UTF-8 encoding of one scalar value. -/
def charUtf8 (c : Char) : List Byte :=
  let n := c.toNat
  if n < 128 then [n]
  else if n < 2048 then [192 + n / 64, 128 + n % 64]
  else if n < 65536 then [224 + n / 4096, 128 + n / 64 % 64, 128 + n % 64]
  else [240 + n / 262144, 128 + n / 4096 % 64, 128 + n / 64 % 64, 128 + n % 64]

/-- The UTF-8 bytes of a string (`str::as_bytes`). -/
def strBytes (s : String) : List Byte := s.data.flatMap charUtf8

/-- `Path::to_str` of a path built from normal components: the components
joined by `/`; the parent of a single-component path prints as `""`. -/
def pathStr (p : FPath) : String := String.intercalate "/" p

/-- `PBKDF2_NUM_ITER` (`src/hasher.rs` line 14): `2^17`. -/
def pbkdf2NumIter : Nat := 2 ^ 17

/-- `DEFAULT_SALT` (`src/hasher.rs` line 16). -/
def defaultSalt : List Byte := [0, 1, 2, 3, 4, 5, 6, 7, 8, 9, 10, 11, 12, 13, 14, 15]

/-- `hash_custom` (`src/hasher.rs` lines 47-70), over an abstract
`pbkdf2 : key → salt → iterations → credential` standing for ring's
PBKDF2-HMAC-SHA512 derivation into a 64-byte buffer.  A salt of at least
16 bytes is truncated to 16; a shorter salt is first hashed once with the
default salt (the recursive `hash_custom(s, None, Some(1))` unfolded) and
truncated to 16; no salt means the default salt. -/
def hash_custom (pbkdf2 : List Byte → List Byte → Nat → List Byte)
    (key : List Byte) (optSalt : Option (List Byte)) (optNumIter : Option Nat) :
    List Byte :=
  let numIter := optNumIter.getD pbkdf2NumIter
  let salt : List Byte :=
    match optSalt with
    | some s => if 16 ≤ s.length then s.take 16 else (pbkdf2 s defaultSalt 1).take 16
    | none => defaultSalt
  pbkdf2 key salt numIter

/-- `hash` (`src/hasher.rs` lines 32-34): default salt and iterations. -/
def hashDefault (pbkdf2 : List Byte → List Byte → Nat → List Byte)
    (key : List Byte) : List Byte :=
  hash_custom pbkdf2 key none none

/-! ## The basename and path ciphertext maps

`basename_ciphertexts` (`src/crypt/crypt_syncer.rs` lines 162-198) maps
every enumerated path to the string produced by
`compose_encoders!(basename, Encryptor => parent_derived_hash,
TextEncoder => None).as_string()`.  The `aes` parameter abstracts the
AES-256 block function: `aes k` is the block permutation under the 32-byte
key `k`. -/

/-- The key under which a path's basename is encrypted
(`crypt_syncer.rs` lines 174-180): the master `key_hash` when the path is
the sync source (or has no parent); otherwise
`hash_custom(key_hash, parent_str.as_bytes(), Some(1))`. -/
def parentDerivedKey (pbkdf2 : List Byte → List Byte → Nat → List Byte)
    (keyHash : List Byte) (source p : FPath) : List Byte :=
  if p ≠ source then
    hash_custom pbkdf2 keyHash (some (strBytes (pathStr p.dropLast))) (some 1)
  else keyHash

/-- One entry of `basename_ciphertexts`: `none` for a path without a
basename (skipped with a report).  The `cryptorNew` mismatch arm models
the key-length assertion, which in Rust aborts the whole run rather than
skipping the entry; the theorems below carry the key-length hypothesis
under which it cannot fire.  The drain fuel `2 * |bn| + 2` exceeds the
number of loop iterations `as_string` can take on this stage stack. -/
def bcEntry (aes : List Byte → List Byte → List Byte)
    (pbkdf2 : List Byte → List Byte → Nat → List Byte)
    (keyHash : List Byte) (source p : FPath) : Option (FPath × List Byte) :=
  if p.isEmpty then none
  else
    let bn := strBytes (p.getLastD "")
    let parentKey := parentDerivedKey pbkdf2 keyHash source p
    match cryptorNew parentKey bn with
    | .ok c =>
      (asVec (textRead base16Params (cryptorRead (aes (parentKey.take 32)) true listRead))
        (2 * bn.length + 2) (textEncNew c)).map (fun ct => (p, ct))
    | _ => none

/-- `basename_ciphertexts` over the enumerated paths (the `find`
collaborator supplies `paths`; entries that error are skipped). -/
def basename_ciphertexts (aes : List Byte → List Byte → List Byte)
    (pbkdf2 : List Byte → List Byte → Nat → List Byte)
    (keyHash : List Byte) (paths : List FPath) (source : FPath) :
    List (FPath × List Byte) :=
  paths.filterMap (bcEntry aes pbkdf2 keyHash source)

/-- `path_ciphertexts` for one path (`crypt_syncer.rs` lines 118-142):
fold over the components; for each normal component extend the source
accumulator and push the basename-map ciphertext of that prefix when the
map has one, silently skipping prefixes that do not. -/
def pathCiphertext (bc : List (FPath × List Byte)) (p : FPath) : List (List Byte) :=
  (p.foldl (fun acc comp =>
    let accSrc := acc.1 ++ [comp]
    match List.lookup accSrc bc with
    | some v => (accSrc, acc.2 ++ [v])
    | none => (accSrc, acc.2)) (([] : FPath), ([] : List (List Byte)))).2

/-- `path_ciphertexts` (`crypt_syncer.rs` lines 118-142): every key of the
basename map, mapped to its ciphertext path. -/
def path_ciphertexts (bc : List (FPath × List Byte)) : List (FPath × List (List Byte)) :=
  bc.map (fun e => (e.1, pathCiphertext bc e.1))

/-- The pure form of a basename ciphertext: BASE16 text of the CFB
encryption of the basename bytes under the parent-derived key. -/
def bcValue (aes : List Byte → List Byte → List Byte)
    (pbkdf2 : List Byte → List Byte → Nat → List Byte)
    (keyHash : List Byte) (source p : FPath) : List Byte :=
  enc16 (cfbUpdate (aes ((parentDerivedKey pbkdf2 keyHash source p).take 32)) true
    initCfb (strBytes (p.getLastD ""))).1

/-- The key the sync passes to every file's content `Encryptor`
(`crypt_syncer.rs` lines 70-75): the invocation-wide `key_hash`, of which
`Encryptor::new` keeps the first 32 bytes.  The file's path is not an
input. -/
def syncContentKey (keyHash : List Byte) (_sourceFile : FPath) : List Byte :=
  keyHash.take 32

/-- Modelled from the spec (§4.8, §4.5 hazard note): the per-file content
key claim C2 describes — the §4.8 derivation applied to the file's parent
path, truncated to the 32-byte cipher key. -/
def specDerivedContentKey (pbkdf2 : List Byte → List Byte → Nat → List Byte)
    (keyHash : List Byte) (p : FPath) : List Byte :=
  (hash_custom pbkdf2 keyHash (some (strBytes (pathStr p.dropLast))) (some 1)).take 32

/-- The file-content pipeline of `CryptSyncer::sync` (`crypt_syncer.rs`
lines 69-77): `ZstdEncoder => None` then `Encryptor => key_hash` over the
opened file, drained by `write_all_to` into the arena file.  The source
path only selects which file is opened. -/
def syncFileCiphertext (aes : List Byte → List Byte → List Byte)
    (comp : List Byte → List Byte) (keyHash content : List Byte) (fuel : Nat) :
    Option (List Byte) :=
  asVec (cryptorRead (aes (keyHash.take 32)) true listRead) fuel
    ⟨initCfb, zstdEncoderStream comp content⟩

/-- Symbol `i` of the path-safe base64 alphabet: RFC4648 base64 with `/`
replaced by `-`. -/
def b64Digit (i : Nat) : Byte :=
  if i < 26 then 65 + i
  else if i < 52 then 97 + (i - 26)
  else if i < 62 then 48 + (i - 52)
  else if i = 62 then 43
  else 45

/-- Modelled from the spec (§4.3, §4.8) and the doc comment of
`hash_base64_pathsafe` (`src/hasher.rs` lines 72-76): path-safe base64,
RFC4648 with `=`-padding and `/` replaced by `-` (the
`EncType::BASE64_PATHSAFE` alphabet referenced there is not defined under
`src/`). -/
def b64PathSafe : List Byte → List Byte
  | [] => []
  | [b1] => [b64Digit (b1 / 4 % 64), b64Digit (b1 % 4 * 16), 61, 61]
  | [b1, b2] => [b64Digit (b1 / 4 % 64), b64Digit (b1 % 4 * 16 + b2 / 16 % 16),
      b64Digit (b2 % 16 * 4), 61]
  | b1 :: b2 :: b3 :: bs =>
    b64Digit (b1 / 4 % 64) :: b64Digit (b1 % 4 * 16 + b2 / 16 % 16) ::
      b64Digit (b2 % 16 * 4 + b3 / 64 % 4) :: b64Digit (b3 % 64) :: b64PathSafe bs

/-- The `.csync` marker bytes of the spec's suffix policy. -/
def csyncSuffix : List Byte := strBytes ".csync"

/-! ## The minimum mkdir set -/

/-- The ancestor-removal loop of `min_mkdir_set` (`src/util.rs` lines
54-63): walk up through `Path::parent`, removing each parent still in the
set, stopping at the first absent parent (or at a path with no parent).
The fuel is the component count, which the parent chain cannot exceed. -/
def removeAncestorsFuel : Nat → List FPath → FPath → List FPath
  | 0, acc, _ => acc
  | fuel + 1, acc, p =>
    if p = [] then acc
    else if p.dropLast ∈ acc then removeAncestorsFuel fuel (acc.erase p.dropLast) p.dropLast
    else acc

/-- The loop entered at `current = path`. -/
def removeAncestors (acc : List FPath) (p : FPath) : List FPath :=
  removeAncestorsFuel p.length acc p

/-- `min_mkdir_set` (`src/util.rs` lines 44-68): fold over the dirs,
starting from the set of all of them; for each dir still present, remove
its chain of present ancestors.  The `HashSet` is modelled as a
duplicate-free list. -/
def min_mkdir_set (dirs : List FPath) : List FPath :=
  dirs.foldl (fun acc p => if p ∈ acc then removeAncestors acc p else acc) dirs.dedup

/-- `as_string` of `TextEncoder(None)` over `Encryptor` over an in-memory
basename equals the BASE16 text of the CFB ciphertext. -/
theorem asString_base16_cfb (E : List Byte → List Byte) (bn : List Byte) :
    asVec (textRead base16Params (cryptorRead E true listRead)) (2 * bn.length + 2)
      (textEncNew (⟨initCfb, bn⟩ : Cryptor (List Byte))) =
      some (enc16 (cfbUpdate E true initCfb bn).1) := by
  have hsim := text_sim (cryptor_sim E true listRead_sim) base16Params (fun _ => True) base16_ok
  refine asVec_sim hsim _ _ _ ?_ ?_
  · refine ⟨(cfbUpdate E true initCfb bn).1, ⟨bn, rfl, rfl⟩, ?_, ?_, trivial⟩
    · simp [textEncNew, base16Params]
    · intro _
      exact dvd_zero _
  · rw [enc16_length, cfbUpdate_length]
    omega

/-- A path with a basename and a long-enough parent-derived key gets
exactly the BASE16-of-CFB ciphertext as its basename-map entry. -/
theorem bcEntry_eq (aes : List Byte → List Byte → List Byte)
    (pbkdf2 : List Byte → List Byte → Nat → List Byte)
    (keyHash : List Byte) (source p : FPath) (hp : p ≠ [])
    (hk : 32 ≤ (parentDerivedKey pbkdf2 keyHash source p).length) :
    bcEntry aes pbkdf2 keyHash source p = some (p, bcValue aes pbkdf2 keyHash source p) := by
  have hemp : p.isEmpty = false := by
    cases p with
    | nil => exact absurd rfl hp
    | cons a l => rfl
  simp only [bcEntry, hemp, Bool.false_eq_true, if_false, cryptorNew, if_pos hk,
    asString_base16_cfb, Option.map_some', bcValue]

/-- Characterization of a lookup in the basename map: a path found among
the enumerated paths and possessing a basename maps to its ciphertext, a
pure function of the path; everything else is absent. -/
theorem lookup_bc (aes : List Byte → List Byte → List Byte)
    (pbkdf2 : List Byte → List Byte → Nat → List Byte)
    (keyHash : List Byte) (source : FPath) :
    ∀ (paths : List FPath) (p : FPath),
      (∀ q ∈ paths, 32 ≤ (parentDerivedKey pbkdf2 keyHash source q).length) →
      List.lookup p (basename_ciphertexts aes pbkdf2 keyHash paths source) =
        if p ∈ paths ∧ p ≠ [] then some (bcValue aes pbkdf2 keyHash source p) else none := by
  intro paths
  induction paths with
  | nil =>
    intro p _
    simp [basename_ciphertexts]
  | cons q qs ih =>
    intro p hk
    have hkq := hk q (List.mem_cons_self _ _)
    have hks : ∀ r ∈ qs, 32 ≤ (parentDerivedKey pbkdf2 keyHash source r).length :=
      fun r hr => hk r (List.mem_cons_of_mem _ hr)
    by_cases hq : q = []
    · subst hq
      have hnone : bcEntry aes pbkdf2 keyHash source [] = none := rfl
      simp only [basename_ciphertexts, List.filterMap_cons, hnone]
      rw [show List.filterMap (bcEntry aes pbkdf2 keyHash source) qs =
        basename_ciphertexts aes pbkdf2 keyHash qs source from rfl, ih p hks]
      by_cases hpn : p = []
      · subst hpn
        simp
      · by_cases hmem : p ∈ qs <;> simp [hmem, hpn]
    · rw [show basename_ciphertexts aes pbkdf2 keyHash (q :: qs) source =
        (q, bcValue aes pbkdf2 keyHash source q) ::
          basename_ciphertexts aes pbkdf2 keyHash qs source from by
        simp only [basename_ciphertexts, List.filterMap_cons,
          bcEntry_eq aes pbkdf2 keyHash source q hq hkq]]
      by_cases hpq : p = q
      · subst hpq
        simp [List.lookup, List.mem_cons, hq]
      · have hbeq : (p == q) = false := beq_eq_false_iff_ne.mpr hpq
        simp only [List.lookup, hbeq]
        rw [ih p hks]
        by_cases hpn : p = []
        · subst hpn
          simp
        · by_cases hmem : p ∈ qs <;> simp [hmem, hpn, hpq]

/-- The basename-map hits of the successive prefixes of `p`, each prefix
extended from the already-walked components `a₁`. -/
def prefixHits (bc : List (FPath × List Byte)) : FPath → FPath → List (List Byte)
  | _, [] => []
  | a₁, c :: cs =>
    (List.lookup (a₁ ++ [c]) bc).toList ++ prefixHits bc (a₁ ++ [c]) cs

/-- The `path_ciphertexts` fold, with general accumulators: the source
accumulator collects the components, and the ciphertext accumulator
collects the map hits of the successive prefixes, in order. -/
theorem pathCiphertext_fold (bc : List (FPath × List Byte)) :
    ∀ (p : FPath) (a₁ : FPath) (a₂ : List (List Byte)),
      p.foldl (fun (acc : FPath × List (List Byte)) (c : String) =>
        let accSrc := acc.1 ++ [c]
        match List.lookup accSrc bc with
        | some v => (accSrc, acc.2 ++ [v])
        | none => (accSrc, acc.2)) (a₁, a₂) =
      (a₁ ++ p, a₂ ++ prefixHits bc a₁ p) := by
  intro p
  induction p with
  | nil =>
    intro a₁ a₂
    simp [prefixHits]
  | cons c cs ih =>
    intro a₁ a₂
    rw [List.foldl_cons]
    have hstep : (let accSrc := (a₁, a₂).1 ++ [c];
        match List.lookup accSrc bc with
        | some v => (accSrc, (a₁, a₂).2 ++ [v])
        | none => (accSrc, (a₁, a₂).2)) =
        ((a₁ ++ [c] : FPath), a₂ ++ (List.lookup (a₁ ++ [c]) bc).toList) := by
      cases h : List.lookup (a₁ ++ [c]) bc with
      | none => simp [h]
      | some v => simp [h]
    rw [hstep, ih]
    simp [prefixHits, List.append_assoc]

/-- `prefixHits` as an indexed walk over the prefixes. -/
theorem prefixHits_eq (bc : List (FPath × List Byte)) :
    ∀ (p : FPath) (a₁ : FPath),
      prefixHits bc a₁ p =
        (List.range p.length).flatMap
          (fun i => (List.lookup (a₁ ++ p.take (i + 1)) bc).toList) := by
  intro p
  induction p with
  | nil =>
    intro a₁
    simp [prefixHits]
  | cons c cs ih =>
    intro a₁
    have h1 : ∀ i : Nat, a₁ ++ c :: cs.take (i + 1) = (a₁ ++ [c]) ++ cs.take (i + 1) :=
      fun i => List.append_cons a₁ c (cs.take (i + 1))
    have h0 : a₁ ++ List.take (0 + 1) (c :: cs) = a₁ ++ [c] := by
      simp
    rw [show prefixHits bc a₁ (c :: cs) =
      (List.lookup (a₁ ++ [c]) bc).toList ++ prefixHits bc (a₁ ++ [c]) cs from rfl]
    rw [ih, List.length_cons, List.range_succ_eq_map]
    simp only [List.flatMap_cons, List.flatMap_map, Function.comp, List.take_succ_cons,
      Nat.zero_add, List.take_zero]
    rw [show (a₁ ++ [c] : FPath) = a₁ ++ [c] from rfl]
    simp only [h1]

/-- `path_ciphertexts` on one path pushes, in component order, exactly the
basename-map hits of its successive prefixes. -/
theorem pathCiphertext_eq (bc : List (FPath × List Byte)) (p : FPath) :
    pathCiphertext bc p =
      (List.range p.length).flatMap
        (fun i => (List.lookup (p.take (i + 1)) bc).toList) := by
  have h := pathCiphertext_fold bc p [] []
  rw [pathCiphertext, h]
  rw [prefixHits_eq]
  simp

/-- Generic: the length of an `Option.toList`-flatMap counts the `isSome`
hits. -/
theorem length_flatMap_toList {α β : Type} (g : α → Option β) (l : List α) :
    (l.flatMap (fun a => (g a).toList)).length =
      l.countP (fun a => (g a).isSome) := by
  induction l with
  | nil => rfl
  | cons a l ih =>
    cases h : g a with
    | none => simp [List.countP_cons, h, ih]
    | some b => simp [List.countP_cons, h, ih]

/-- The ciphertext path of the path's own map entry ends in that entry's
ciphertext. -/
theorem pathCiphertext_getLast (bc : List (FPath × List Byte)) (p : FPath)
    (v : List Byte) (hp : p ≠ []) (hv : List.lookup p bc = some v) :
    (pathCiphertext bc p).getLast? = some v := by
  obtain ⟨m, hm⟩ : ∃ m, p.length = m + 1 := by
    cases hl : p.length with
    | zero => exact absurd (List.length_eq_zero.mp hl) hp
    | succ m => exact ⟨m, rfl⟩
  rw [pathCiphertext_eq, hm, List.range_succ, List.flatMap_append]
  have hlast : p.take (m + 1) = p := by
    rw [← hm]
    exact List.take_length p
  simp [hlast, hv]

/-! ## Correctness of `min_mkdir_set`

The fold's invariant: the accumulator is a duplicate-free subset of the
enumerated dirs, containing no empty path and every maximal dir, and once
a path is gone its parent is gone too. -/

/-- Invariant of the `min_mkdir_set` accumulator over the dir collection
`D`. -/
structure MkInv (D : List FPath) (acc : List FPath) : Prop where
  nodup : acc.Nodup
  sub : ∀ x ∈ acc, x ∈ D
  nonil : ([] : FPath) ∉ acc
  clean : ∀ x ∈ D, x ∉ acc → x.dropLast ∉ acc
  maxmem : ∀ m ∈ D, (∀ q ∈ D, m <+: q → q = m) → m ∈ acc

/-- Behaviour of the ancestor-removal loop: it only erases strict
prefixes of the start path, leaves the start path alone, erases the
parent of the start path, and restores cleanliness. -/
theorem removeAncestorsFuel_spec (D : List FPath) :
    ∀ (fuel : Nat) (acc : List FPath) (p : FPath), fuel = p.length →
      acc.Nodup → (∀ x ∈ acc, x ∈ D) → ([] : FPath) ∉ acc →
      (∀ x ∈ D, x ∉ acc → (x.dropLast ∉ acc ∨ x.dropLast = p.dropLast)) →
      (∀ x ∈ removeAncestorsFuel fuel acc p, x ∈ acc) ∧
      (removeAncestorsFuel fuel acc p).Nodup ∧
      (∀ x ∈ D, x ∉ removeAncestorsFuel fuel acc p →
        x.dropLast ∉ removeAncestorsFuel fuel acc p) ∧
      p.dropLast ∉ removeAncestorsFuel fuel acc p ∧
      (∀ y ∈ acc, y ∉ removeAncestorsFuel fuel acc p → (y <+: p ∧ y ≠ p)) ∧
      (p ∈ acc → p ∈ removeAncestorsFuel fuel acc p) := by
  intro fuel
  induction fuel with
  | zero =>
    intro acc p hfuel hnd hsub hnil hpre
    have hp : p = [] := List.length_eq_zero.mp hfuel.symm
    subst hp
    refine ⟨fun x hx => hx, hnd, ?_, ?_, ?_, fun h => h⟩
    · intro x hxD hxacc
      rcases hpre x hxD hxacc with h | h
      · exact h
      · rw [h]
        exact hnil
    · exact hnil
    · intro y hy hny
      exact absurd hy hny
  | succ fuel ih =>
    intro acc p hfuel hnd hsub hnil hpre
    have hp : p ≠ [] := by
      intro h
      subst h
      simp at hfuel
    have hplen : p.dropLast.length = fuel := by
      rw [List.length_dropLast]
      omega
    by_cases hpar : p.dropLast ∈ acc
    · have hred : removeAncestorsFuel (fuel + 1) acc p =
          removeAncestorsFuel fuel (acc.erase p.dropLast) p.dropLast := by
        simp [removeAncestorsFuel, hp, hpar]
      have hme : ∀ x, x ∈ acc.erase p.dropLast ↔ x ≠ p.dropLast ∧ x ∈ acc :=
        fun x => hnd.mem_erase_iff
      have hparnotin : p.dropLast ∉ acc.erase p.dropLast := by
        intro h
        exact absurd rfl ((hme _).mp h).1
      have hpre' : ∀ x ∈ D, x ∉ acc.erase p.dropLast →
          (x.dropLast ∉ acc.erase p.dropLast ∨ x.dropLast = p.dropLast.dropLast) := by
        intro x hxD hxe
        by_cases hxp : x = p.dropLast
        · subst hxp
          exact Or.inr rfl
        · have hxacc : x ∉ acc := by
            intro hxin
            exact hxe ((hme x).mpr ⟨hxp, hxin⟩)
          rcases hpre x hxD hxacc with h | h
          · exact Or.inl (fun hin => h (List.erase_subset _ _ hin))
          · exact Or.inl (by
              rw [h]
              exact hparnotin)
      obtain ⟨c1, c2, c3, c4, c5, c6⟩ := ih (acc.erase p.dropLast) p.dropLast hplen.symm
        (hnd.erase _) (fun x hx => hsub x (List.erase_subset _ _ hx))
        (fun h => hnil (List.erase_subset _ _ h)) hpre'
      rw [hred]
      have hsub' : ∀ x, x ∈ removeAncestorsFuel fuel (acc.erase p.dropLast) p.dropLast →
          x ∈ acc := fun x hx => List.erase_subset _ _ (c1 x hx)
      refine ⟨hsub', c2, c3, ?_, ?_, ?_⟩
      · intro h
        exact hparnotin (c1 _ h)
      · intro y hy hny
        by_cases hyp : y = p.dropLast
        · subst hyp
          exact ⟨List.dropLast_prefix p, fun h => by
            have := congrArg List.length h
            rw [List.length_dropLast] at this
            have : p.length ≠ 0 := fun h0 => hp (List.length_eq_zero.mp h0)
            omega⟩
        · have hy1 : y ∈ acc.erase p.dropLast := (hme y).mpr ⟨hyp, hy⟩
          obtain ⟨hpref, hne⟩ := c5 y hy1 hny
          refine ⟨hpref.trans (List.dropLast_prefix p), ?_⟩
          intro h
          subst h
          have h1 := hpref.length_le
          rw [List.length_dropLast] at h1
          have : y.length ≠ 0 := by
            intro h0
            exact hnil (List.length_eq_zero.mp h0 ▸ hy)
          omega
      · intro hpacc
        have hpne : p ≠ p.dropLast := by
          intro h
          have := congrArg List.length h
          rw [List.length_dropLast] at this
          have : p.length ≠ 0 := fun h0 => hp (List.length_eq_zero.mp h0)
          omega
        have hp1 : p ∈ acc.erase p.dropLast := (hme p).mpr ⟨hpne, hpacc⟩
        by_contra hnot
        obtain ⟨hpref, _⟩ := c5 p hp1 hnot
        have h1 := hpref.length_le
        rw [List.length_dropLast] at h1
        have : p.length ≠ 0 := fun h0 => hp (List.length_eq_zero.mp h0)
        omega
    · have hred : removeAncestorsFuel (fuel + 1) acc p = acc := by
        simp [removeAncestorsFuel, hp, hpar]
      rw [hred]
      refine ⟨fun x hx => hx, hnd, ?_, hpar, ?_, fun h => h⟩
      · intro x hxD hxacc
        rcases hpre x hxD hxacc with h | h
        · exact h
        · rw [h]
          exact hpar
      · intro y hy hny
        exact absurd hy hny

/-- One step of the `min_mkdir_set` fold preserves the invariant, shrinks
the accumulator, and evicts the parent of the processed dir. -/
theorem mkdirStep_spec (D : List FPath) (acc : List FPath) (p : FPath)
    (hpD : p ∈ D) (hInv : MkInv D acc) :
    MkInv D (if p ∈ acc then removeAncestors acc p else acc) ∧
      p.dropLast ∉ (if p ∈ acc then removeAncestors acc p else acc) ∧
      (∀ x, x ∈ (if p ∈ acc then removeAncestors acc p else acc) → x ∈ acc) := by
  by_cases hpacc : p ∈ acc
  · rw [if_pos hpacc]
    obtain ⟨c1, c2, c3, c4, c5, c6⟩ := removeAncestorsFuel_spec D p.length acc p rfl
      hInv.nodup hInv.sub hInv.nonil
      (fun x hxD hxacc => Or.inl (hInv.clean x hxD hxacc))
    refine ⟨⟨c2, fun x hx => hInv.sub x (c1 x hx), fun h => hInv.nonil (c1 _ h), c3, ?_⟩,
      c4, c1⟩
    intro m hmD hmax
    have hm : m ∈ acc := hInv.maxmem m hmD hmax
    by_contra hnot
    obtain ⟨hpref, hne⟩ := c5 m hm hnot
    exact hne (hmax p hpD hpref).symm
  · rw [if_neg hpacc]
    exact ⟨hInv, hInv.clean p hpD hpacc, fun x hx => hx⟩

/-- The whole fold: the invariant holds at the end, every processed dir
has its parent evicted, and nothing evicted returns. -/
theorem mkdirFold_spec (D : List FPath) :
    ∀ (todo : List FPath) (acc : List FPath), (∀ x ∈ todo, x ∈ D) → MkInv D acc →
      MkInv D (todo.foldl (fun a q => if q ∈ a then removeAncestors a q else a) acc) ∧
      (∀ q ∈ todo, q.dropLast ∉
        todo.foldl (fun a q => if q ∈ a then removeAncestors a q else a) acc) ∧
      (∀ x, x ∉ acc →
        x ∉ todo.foldl (fun a q => if q ∈ a then removeAncestors a q else a) acc) := by
  intro todo
  induction todo with
  | nil =>
    intro acc _ hInv
    exact ⟨hInv, fun q hq => absurd hq (List.not_mem_nil q), fun x h => h⟩
  | cons q qs ih =>
    intro acc htodo hInv
    obtain ⟨hInv₁, hpar₁, hsub₁⟩ := mkdirStep_spec D acc q (htodo q (List.mem_cons_self _ _)) hInv
    obtain ⟨hInvF, hparF, hmonoF⟩ := ih _ (fun x hx => htodo x (List.mem_cons_of_mem _ hx)) hInv₁
    rw [List.foldl_cons]
    refine ⟨hInvF, ?_, ?_⟩
    · intro r hr
      rcases List.mem_cons.mp hr with h | h
      · subst h
        exact hmonoF _ hpar₁
      · exact hparF r h
    · intro x hx
      exact hmonoF x (fun h => hx (hsub₁ x h))

/-- Prefix-closedness of the enumerated dir collection, as claim C6
assumes it: every nonempty proper prefix of a member is a member. -/
def PrefixClosed (D : List FPath) : Prop :=
  ∀ p ∈ D, ∀ k, k < p.length → 1 ≤ k → p.take k ∈ D

instance (D : List FPath) : Decidable (PrefixClosed D) :=
  inferInstanceAs (Decidable (∀ p ∈ D, ∀ k, k < p.length → 1 ≤ k → p.take k ∈ D))

/-- A nonempty list of paths has an element of maximum length. -/
theorem exists_max_len : ∀ (l : List FPath), l ≠ [] →
    ∃ m ∈ l, ∀ x ∈ l, x.length ≤ m.length := by
  intro l
  induction l with
  | nil => intro h; exact absurd rfl h
  | cons a l ih =>
    intro _
    by_cases hl : l = []
    · subst hl
      refine ⟨a, List.mem_cons_self _ _, ?_⟩
      intro x hx
      rcases List.mem_cons.mp hx with h | h
      · subst h; exact le_rfl
      · exact absurd h (List.not_mem_nil x)
    · obtain ⟨m, hm, hmax⟩ := ih hl
      by_cases hc : a.length ≤ m.length
      · refine ⟨m, List.mem_cons_of_mem _ hm, ?_⟩
        intro x hx
        rcases List.mem_cons.mp hx with h | h
        · subst h; exact hc
        · exact hmax x h
      · refine ⟨a, List.mem_cons_self _ _, ?_⟩
        intro x hx
        rcases List.mem_cons.mp hx with h | h
        · subst h; exact le_rfl
        · exact le_trans (hmax x h) (Nat.le_of_not_le hc)

/-- Every member of a finite collection extends to a maximal member. -/
theorem exists_maximal_ext (D : List FPath) (d : FPath) (hd : d ∈ D) :
    ∃ m ∈ D, d <+: m ∧ ∀ q ∈ D, m <+: q → q = m := by
  have hdE : d ∈ D.filter (fun q => d.isPrefixOf q) :=
    List.mem_filter.mpr ⟨hd, List.isPrefixOf_iff_prefix.mpr (List.prefix_refl d)⟩
  obtain ⟨m, hmE, hmax⟩ := exists_max_len _ (List.ne_nil_of_mem hdE)
  have hmD : m ∈ D := (List.mem_filter.mp hmE).1
  have hdm : d <+: m := List.isPrefixOf_iff_prefix.mp (List.mem_filter.mp hmE).2
  refine ⟨m, hmD, hdm, ?_⟩
  intro q hqD hmq
  have hqE : q ∈ D.filter (fun r => d.isPrefixOf r) :=
    List.mem_filter.mpr ⟨hqD, List.isPrefixOf_iff_prefix.mpr (hdm.trans hmq)⟩
  exact (hmq.eq_of_length (Nat.le_antisymm hmq.length_le (hmax q hqE))).symm

/-- Dropping the last element of a prefix-take steps the take down. -/
theorem dropLast_take_eq (y : FPath) (k : Nat) (hk : k ≤ y.length) :
    (y.take k).dropLast = y.take (k - 1) := by
  rw [List.dropLast_eq_take, List.length_take, Nat.min_eq_left hk, List.take_take,
    Nat.min_eq_left (by omega)]

/-! ## Helpers for the claim theorems -/

/-- A codec state whose stream is exhausted has both buffers empty and an
exhausted source. -/
theorem textInv_nil_state {σ : Type} {Inv : σ → List Byte → Prop}
    (P : TextParams) (V : List Byte → Prop) (hok : TextOk P V) (t : TextEnc σ)
    (h : TextInv P V Inv t []) :
    t.encBuf = [] ∧ t.srcBuf = [] ∧ Inv t.source [] := by
  obtain ⟨Rin, hsrc, hR, _, hV⟩ := h
  have hboth := (List.append_eq_nil).mp hR.symm
  have hstream : t.srcBuf ++ Rin = [] := by
    by_contra hne
    exact hok.enc_ne _ hV hne hboth.2
  have hparts := (List.append_eq_nil).mp hstream
  refine ⟨hboth.1, hparts.1, ?_⟩
  rw [← hparts.2]
  exact hsrc

/-- A lookup in a map rebuilt by transforming each key's value. -/
theorem lookup_map_fst {β γ : Type} (f : FPath → γ) :
    ∀ (l : List (FPath × β)) (p : FPath),
      List.lookup p (l.map (fun e => (e.1, f e.1))) =
        (List.lookup p l).map (fun _ => f p) := by
  intro l
  induction l with
  | nil => intro p; rfl
  | cons e l ih =>
    intro p
    obtain ⟨k, v⟩ := e
    by_cases hpk : p = k
    · subst hpk
      simp [List.lookup]
    · have hbeq : (p == k) = false := beq_eq_false_iff_ne.mpr hpk
      simp only [List.map_cons, List.lookup, hbeq]
      exact ih p

/-- A list never equals itself extended by a nonempty suffix. -/
theorem ne_append_of_ne_nil {α : Type} (xs ys : List α) (h : ys ≠ []) :
    xs ≠ xs ++ ys := by
  intro heq
  have := congrArg List.length heq
  rw [List.length_append] at this
  have : ys.length = 0 := by omega
  exact h (List.length_eq_zero.mp this)

/-- A concrete stand-in for the AES-256 block function, used by the
witnesses (any function is admissible; the theorems are uniform in it). -/
def demoAes : List Byte → List Byte → List Byte := fun _ _ => []

/-- A concrete stand-in for PBKDF2-HMAC-SHA512 used by the witnesses:
returns 64 bytes mixing key and salt into the prefix. -/
def demoPbkdf2 : List Byte → List Byte → Nat → List Byte :=
  fun k s _ => (k.take 8 ++ s.take 8 ++ k ++ s ++ List.replicate 64 0).take 64

/-- A concrete 32-byte master key for the witnesses. -/
def demoKey : List Byte := List.replicate 32 7

/-! ## The claims -/

/-- Claim C1: for every byte sequence B and key, an Encryptor stage
followed by a Decryptor stage with the same key yields exactly B again,
and likewise a zstd-compress stage followed by a zstd-decompress stage
(under the library's round-trip contract); the universal quantification
over B covers the empty input, one byte, `buffer_size − 1`, `buffer_size`,
`buffer_size + 1`, and inputs far beyond the buffer size.  The drain fuel
only needs to exceed the stream length. -/
theorem claim1_pipeline_roundtrip :
    ∀ (aes : List Byte → List Byte → List Byte) (key B : List Byte) (fuel : Nat),
      B.length < fuel →
      (asVec (cryptorRead (aes (key.take 32)) false
          (cryptorRead (aes (key.take 32)) true listRead)) fuel
        ⟨initCfb, ⟨initCfb, B⟩⟩ = some B) ∧
      (∀ comp decomp : List Byte → List Byte, (∀ x, decomp (comp x) = x) →
        asVec listRead fuel (zstdPipelineState comp decomp B) = some B) := by
  intro aes key B fuel hfuel
  constructor
  · have h1 := cryptor_sim (aes (key.take 32)) true listRead_sim
    have h2 := cryptor_sim (aes (key.take 32)) false h1
    refine asVec_sim h2 fuel _ B ?_ hfuel
    refine ⟨(cfbUpdate (aes (key.take 32)) true initCfb B).1, ⟨B, rfl, rfl⟩, ?_⟩
    exact (congrArg Prod.fst (cfbUpdate_roundtrip (aes (key.take 32)) initCfb B)).symm
  · intro comp decomp hcd
    have hz : zstdPipelineState comp decomp B = B := hcd B
    rw [hz]
    exact asVec_sim listRead_sim fuel B B rfl hfuel

/-- Claim C1 witness: the round trip evaluated at a concrete key and a
concrete three-byte input. -/
theorem claim1_pipeline_roundtrip_witness :
    (([3, 7, 200] : List Byte).length < 5) ∧
      (asVec (cryptorRead (demoAes (demoKey.take 32)) false
          (cryptorRead (demoAes (demoKey.take 32)) true listRead)) 5
        ⟨initCfb, ⟨initCfb, [3, 7, 200]⟩⟩ = some [3, 7, 200]) ∧
      (asVec listRead 5 (zstdPipelineState id id [3, 7, 200]) = some [3, 7, 200]) :=
  ⟨by decide,
   (claim1_pipeline_roundtrip demoAes demoKey [3, 7, 200] 5 (by decide)).1,
   (claim1_pipeline_roundtrip demoAes demoKey [3, 7, 200] 5 (by decide)).2 id id
     (fun _ => rfl)⟩

/-- Claim C2 (code bug): the sync passes the same invocation-wide
`key_hash` to the content `Encryptor` of every file
(`crypt_syncer.rs` line 73), so two distinct source files are encrypted
under the same AES-256-CFB key — not under per-file derived keys as the
claim and the spec's §4.5 hazard note require.  The last conjunct shows
that the spec's §4.8 derivation would have produced different keys for the
two files of the failing input. -/
theorem claim2_content_key_shared :
    (∀ (keyHash : List Byte) (p q : FPath),
      syncContentKey keyHash p = syncContentKey keyHash q) ∧
    (syncContentKey demoKey ["r", "a", "f1"] = syncContentKey demoKey ["r", "b", "f2"]) ∧
    (specDerivedContentKey demoPbkdf2 demoKey ["r", "a", "f1"] ≠
      specDerivedContentKey demoPbkdf2 demoKey ["r", "b", "f2"]) :=
  ⟨fun _ _ _ => rfl, rfl, by decide⟩

/-- Claim C3 counterexample: at a concrete key and path, the basename
ciphertext the code produces is the BASE16 text of the CFB ciphertext
(`"72"`), not the path-safe base64 the claim asserts (`"cg=="`). -/
theorem claim3_counterexample :
    (bcEntry demoAes demoPbkdf2 demoKey ["r"] ["r"] = some (["r"], [55, 50])) ∧
    (b64PathSafe (cfbUpdate (demoAes (demoKey.take 32)) true initCfb (strBytes "r")).1 =
      [99, 103, 61, 61]) ∧
    (([55, 50] : List Byte) ≠ [99, 103, 61, 61]) :=
  ⟨by decide, by decide, by decide⟩

/-- Claim C3 (amended): the basename ciphertext of every enumerated path P
is the RFC4648 BASE16 (not path-safe base64) text of the AES-CFB
encryption of P's basename under the parent-derived key — the master key
when P is the sync source, and `derive(K, parent_string_of(P), iters=1)`
otherwise. -/
theorem claim3_basename_ciphertext_base16 :
    ∀ (aes : List Byte → List Byte → List Byte)
      (pbkdf2 : List Byte → List Byte → Nat → List Byte)
      (keyHash : List Byte) (source p : FPath),
      p ≠ [] → 32 ≤ (parentDerivedKey pbkdf2 keyHash source p).length →
      bcEntry aes pbkdf2 keyHash source p =
        some (p, enc16 (cfbUpdate
          (aes ((parentDerivedKey pbkdf2 keyHash source p).take 32)) true initCfb
          (strBytes (p.getLastD ""))).1) :=
  fun aes pb kh s p hp hk => bcEntry_eq aes pb kh s p hp hk

/-- Claim C3 amended witness: the basename ciphertext evaluated at a
concrete key and path. -/
theorem claim3_basename_ciphertext_base16_witness :
    ((["r", "f"] : FPath) ≠ []) ∧
    (32 ≤ (parentDerivedKey demoPbkdf2 demoKey ["r"] ["r", "f"]).length) ∧
    (bcEntry demoAes demoPbkdf2 demoKey ["r"] ["r", "f"] =
      some (["r", "f"], enc16 (cfbUpdate
        (demoAes ((parentDerivedKey demoPbkdf2 demoKey ["r"] ["r", "f"]).take 32)) true
        initCfb (strBytes ((["r", "f"] : FPath).getLastD ""))).1)) :=
  ⟨by decide, by decide,
   claim3_basename_ciphertext_base16 demoAes demoPbkdf2 demoKey ["r"] ["r", "f"]
     (by decide) (by decide)⟩

/-- Claim C7 counterexample: a read with a zero-length caller buffer
panics — `target.len() - self.block_size` underflows (`cryptor.rs` line
71) — instead of totally computing `input_size`. -/
theorem claim7_zero_length_counterexample :
    cryptorRead (demoAes demoKey) true listRead ⟨initCfb, [5]⟩ 0 = none := rfl

/-- Claim C7 (amended): for every caller buffer length `L ≥ 1` (the block
size of AES-256-CFB128 is 1, so only `L = 0` makes the subtraction
underflow), a read totally computes `input_size = max 1 (L − 1)`, consumes
at most `input_size` bytes from the inner source, and the cipher's update
writes at most `L` bytes, never overflowing the caller's buffer. -/
theorem claim7_input_size_amended :
    ∀ (E : List Byte → List Byte) (enc : Bool) (st : CfbSt) (src : List Byte) (L : Nat),
      1 ≤ L →
      (cryptorRead E enc listRead ⟨st, src⟩ L =
        some ((cfbUpdate E enc st (src.take (min (max 1 (L - 1)) src.length))).1,
          ⟨(cfbUpdate E enc st (src.take (min (max 1 (L - 1)) src.length))).2,
            src.drop (min (max 1 (L - 1)) src.length)⟩)) ∧
      (min (max 1 (L - 1)) src.length ≤ max 1 (L - 1)) ∧
      ((cfbUpdate E enc st (src.take (min (max 1 (L - 1)) src.length))).1.length ≤ L) := by
  intro E enc st src L hL
  have hsub : checkedSub L cfbBlockSize = some (L - 1) := by
    simp [checkedSub, cfbBlockSize, hL]
  have hin1 : 1 ≤ max 1 (L - 1) := le_max_left _ _
  have hinL : max 1 (L - 1) ≤ L := by omega
  by_cases hsrc : src = []
  · subst hsrc
    obtain ⟨s', hpull, hinv'⟩ := pull_sim_nil listRead_sim (max 1 (L - 1)) [] rfl
    have hs' : s' = [] := hinv'
    subst hs'
    refine ⟨?_, by simp, by simp [cfbUpdate]⟩
    simp [cryptorRead, hsub, hpull, cfbUpdate]
  · obtain ⟨s', hpull, hinv'⟩ :=
      pull_sim_cons listRead_sim (max 1 (L - 1)) src src rfl hsrc hin1
    have hs' : s' = src.drop (min (max 1 (L - 1)) src.length) := hinv'
    subst hs'
    have hmR : min (max 1 (L - 1)) src.length ≤ src.length := min_le_right _ _
    have hm1 : 1 ≤ min (max 1 (L - 1)) src.length :=
      le_min hin1 (Nat.one_le_iff_ne_zero.mpr
        (fun hl => hsrc (List.length_eq_zero.mp hl)))
    have hlen : (src.take (min (max 1 (L - 1)) src.length)).length =
        min (max 1 (L - 1)) src.length := by
      rw [List.length_take]
      exact Nat.min_eq_left hmR
    have hnotlt : ¬ (L < (src.take (min (max 1 (L - 1)) src.length)).length) := by
      rw [hlen]
      have := min_le_left (max 1 (L - 1)) src.length
      omega
    have hupdlen :
        (cfbUpdate E enc st (src.take (min (max 1 (L - 1)) src.length))).1.length =
        min (max 1 (L - 1)) src.length := by
      rw [cfbUpdate_length, hlen]
    have hne0 : ¬ ((cfbUpdate E enc st
        (src.take (min (max 1 (L - 1)) src.length))).1.length = 0) := by
      rw [hupdlen]
      omega
    refine ⟨?_, min_le_left _ _, by rw [hupdlen]; omega⟩
    simp [cryptorRead, hsub, hpull, hnotlt, hne0]
    omega

/-- Claim C7 amended witness: the read evaluated at a concrete state,
source, and buffer length. -/
theorem claim7_input_size_amended_witness :
    ((1 : Nat) ≤ 3) ∧
      ((cryptorRead (demoAes demoKey) true listRead ⟨initCfb, [9, 9]⟩ 3 =
        some ((cfbUpdate (demoAes demoKey) true initCfb
            (([9, 9] : List Byte).take (min (max 1 (3 - 1)) ([9, 9] : List Byte).length))).1,
          ⟨(cfbUpdate (demoAes demoKey) true initCfb
            (([9, 9] : List Byte).take (min (max 1 (3 - 1)) ([9, 9] : List Byte).length))).2,
            ([9, 9] : List Byte).drop (min (max 1 (3 - 1)) ([9, 9] : List Byte).length)⟩)) ∧
      (min (max 1 (3 - 1)) ([9, 9] : List Byte).length ≤ max 1 (3 - 1)) ∧
      ((cfbUpdate (demoAes demoKey) true initCfb
        (([9, 9] : List Byte).take (min (max 1 (3 - 1)) ([9, 9] : List Byte).length))).1.length ≤ 3)) :=
  ⟨by decide, claim7_input_size_amended (demoAes demoKey) true initCfb [9, 9] 3 (by decide)⟩

/-- Claim C9 counterexample: constructing an Encryptor/Decryptor with a
key shorter than 32 bytes hits `assert!(key_hash.len() >= 32)`
(`cryptor.rs` line 44) — a panic, not an ordinary error value. -/
theorem claim9_short_key_counterexample :
    (cryptorNew ([] : List Byte) ([5, 6] : List Byte) = RustCall.assertFail) ∧
    ((RustCall.assertFail : RustCall (Cryptor (List Byte))) ≠ RustCall.errVal) :=
  ⟨rfl, by decide⟩

/-- Claim C9 (amended): construction with a key of at least 32 bytes
succeeds (keeping the first 32 for the cipher); with a shorter key the
assertion panics the process — no error value is returned. -/
theorem claim9_short_key_panics :
    ∀ (keyHash : List Byte) (src : List Byte),
      (32 ≤ keyHash.length → cryptorNew keyHash src = RustCall.ok ⟨initCfb, src⟩) ∧
      (keyHash.length < 32 → cryptorNew keyHash src = RustCall.assertFail) := by
  intro kh src
  constructor
  · intro h
    simp [cryptorNew, h]
  · intro h
    have : ¬ (32 ≤ kh.length) := by omega
    simp [cryptorNew, this]

/-- Claim C9 amended witness: both branches evaluated at concrete keys. -/
theorem claim9_short_key_panics_witness :
    ((([1, 2] : List Byte).length < 32) ∧
      cryptorNew ([1, 2] : List Byte) ([9] : List Byte) = RustCall.assertFail) ∧
    ((32 ≤ demoKey.length) ∧
      cryptorNew demoKey ([9] : List Byte) = RustCall.ok ⟨initCfb, [9]⟩) :=
  ⟨⟨by decide, (claim9_short_key_panics [1, 2] [9]).2 (by decide)⟩,
   ⟨by decide, (claim9_short_key_panics demoKey [9]).1 (by decide)⟩⟩

/-- Claim C4 counterexample: in a sync of the tree `r/{f}`, the file
`r/f`'s destination basename is its bare basename ciphertext (`"66"`, the
BASE16 of the CFB image of `"f"`), not that ciphertext with a `.csync`
suffix appended. -/
theorem claim4_counterexample :
    ((List.lookup (["r", "f"] : FPath)
        (path_ciphertexts (basename_ciphertexts demoAes demoPbkdf2 demoKey
          [["r"], ["r", "f"]] ["r"]))).map (fun segs => segs.getLast?) =
      some (some [54, 54])) ∧
    (([54, 54] : List Byte) ≠ [54, 54] ++ csyncSuffix) :=
  ⟨by decide, by decide⟩

/-- Claim C4 (amended): the destination basename of every enumerated path
(file or directory alike) is its basename ciphertext C(P) with no marker
suffix; the code appends no `.csync` anywhere in the destination name. -/
theorem claim4_no_suffix_appended :
    ∀ (aes : List Byte → List Byte → List Byte)
      (pbkdf2 : List Byte → List Byte → Nat → List Byte)
      (keyHash : List Byte) (paths : List FPath) (source p : FPath),
      (∀ q ∈ paths, 32 ≤ (parentDerivedKey pbkdf2 keyHash source q).length) →
      p ∈ paths → p ≠ [] →
      (List.lookup p (path_ciphertexts (basename_ciphertexts aes pbkdf2 keyHash paths source)) =
        some (pathCiphertext (basename_ciphertexts aes pbkdf2 keyHash paths source) p)) ∧
      ((pathCiphertext (basename_ciphertexts aes pbkdf2 keyHash paths source) p).getLast? =
        some (bcValue aes pbkdf2 keyHash source p)) ∧
      (bcValue aes pbkdf2 keyHash source p ≠
        bcValue aes pbkdf2 keyHash source p ++ csyncSuffix) := by
  intro aes pb kh paths src p hk hmem hp
  have hlk : List.lookup p (basename_ciphertexts aes pb kh paths src) =
      some (bcValue aes pb kh src p) := by
    rw [lookup_bc aes pb kh src paths p hk]
    simp [hmem, hp]
  refine ⟨?_, ?_, ?_⟩
  · rw [show path_ciphertexts (basename_ciphertexts aes pb kh paths src) =
      (basename_ciphertexts aes pb kh paths src).map
        (fun e => (e.1, pathCiphertext (basename_ciphertexts aes pb kh paths src) e.1))
      from rfl]
    rw [lookup_map_fst, hlk]
    rfl
  · exact pathCiphertext_getLast _ p _ hp hlk
  · exact ne_append_of_ne_nil _ _ (by decide)

/-- Claim C4 amended witness: the suffix-free destination basename of the
file `r/f` in a concrete sync. -/
theorem claim4_no_suffix_appended_witness :
    ((["r", "f"] : FPath) ∈ [["r"], ["r", "f"]]) ∧
    ((pathCiphertext (basename_ciphertexts demoAes demoPbkdf2 demoKey
        [["r"], ["r", "f"]] ["r"]) ["r", "f"]).getLast? =
      some (bcValue demoAes demoPbkdf2 demoKey ["r"] ["r", "f"])) :=
  ⟨by decide,
   (claim4_no_suffix_appended demoAes demoPbkdf2 demoKey [["r"], ["r", "f"]] ["r"] ["r", "f"]
     (by decide) (by decide) (by decide)).2.1⟩

/-- Claim C5: for a fixed key and a fixed set of enumerated paths, two
runs of the basename-map construction — which may deliver the enumeration
in different orders — map every path to the same ciphertext string. -/
theorem claim5_determinism :
    ∀ (aes : List Byte → List Byte → List Byte)
      (pbkdf2 : List Byte → List Byte → Nat → List Byte)
      (keyHash : List Byte) (source : FPath) (paths₁ paths₂ : List FPath),
      (∀ q ∈ paths₁, 32 ≤ (parentDerivedKey pbkdf2 keyHash source q).length) →
      paths₁.Perm paths₂ →
      ∀ p : FPath,
        List.lookup p (basename_ciphertexts aes pbkdf2 keyHash paths₁ source) =
          List.lookup p (basename_ciphertexts aes pbkdf2 keyHash paths₂ source) := by
  intro aes pb kh src l1 l2 hk hperm p
  have hk2 : ∀ q ∈ l2, 32 ≤ (parentDerivedKey pb kh src q).length :=
    fun q hq => hk q (hperm.mem_iff.mpr hq)
  rw [lookup_bc aes pb kh src l1 p hk, lookup_bc aes pb kh src l2 p hk2]
  by_cases hmem : p ∈ l1
  · have hmem2 : p ∈ l2 := hperm.mem_iff.mp hmem
    simp [hmem, hmem2]
  · have hmem2 : p ∉ l2 := fun h => hmem (hperm.mem_iff.mpr h)
    simp [hmem, hmem2]

/-- Claim C5 witness: the two enumeration orders of a concrete tree give
the same ciphertext for the root. -/
theorem claim5_determinism_witness :
    (([["r"], ["r", "f"]] : List FPath).Perm [["r", "f"], ["r"]]) ∧
    (List.lookup (["r"] : FPath)
        (basename_ciphertexts demoAes demoPbkdf2 demoKey [["r"], ["r", "f"]] ["r"]) =
      List.lookup (["r"] : FPath)
        (basename_ciphertexts demoAes demoPbkdf2 demoKey [["r", "f"], ["r"]] ["r"])) := by
  have hperm : ([["r"], ["r", "f"]] : List FPath).Perm [["r", "f"], ["r"]] :=
    List.Perm.swap _ _ _
  exact ⟨hperm,
    claim5_determinism demoAes demoPbkdf2 demoKey ["r"] _ _ (by decide) hperm ["r"]⟩

/-- Claim C6 counterexample: on the prefix-closed collection
`{a, a/b, a/c}` the returned set is `{a/b, a/c}`, and the directory `a`
is a prefix of two distinct elements — not of exactly one. -/
theorem claim6_exactly_one_counterexample :
    ¬ (∀ d ∈ ([["a"], ["a", "b"], ["a", "c"]] : List FPath),
        ∃! m, m ∈ min_mkdir_set [["a"], ["a", "b"], ["a", "c"]] ∧ d <+: m) := by
  intro h
  obtain ⟨m, _, huniq⟩ := h ["a"] (by decide)
  have h1 : (["a", "b"] : FPath) = m := huniq ["a", "b"] ⟨by decide, by decide⟩
  have h2 : (["a", "c"] : FPath) = m := huniq ["a", "c"] ⟨by decide, by decide⟩
  rw [← h2] at h1
  exact absurd h1 (by decide)

/-- Claim C6 (amended): on a prefix-closed collection of nonempty dirs,
`min_mkdir_set` returns a subset of the input such that every input dir is
a prefix of at least one returned element, and no returned element is a
prefix of another. -/
theorem claim6_min_mkdir_amended :
    ∀ (D : List FPath), PrefixClosed D → (∀ p ∈ D, p ≠ []) →
      (∀ d ∈ D, ∃ m ∈ min_mkdir_set D, d <+: m) ∧
      (∀ x ∈ min_mkdir_set D, ∀ y ∈ min_mkdir_set D, x <+: y → x = y) ∧
      (∀ m ∈ min_mkdir_set D, m ∈ D) := by
  intro D hpc hne
  have hInit : MkInv D D.dedup :=
    ⟨List.nodup_dedup D, fun x hx => List.mem_dedup.mp hx,
     fun h => hne [] (List.mem_dedup.mp h) rfl,
     fun x hxD hxd => absurd (List.mem_dedup.mpr hxD) hxd,
     fun m hmD _ => List.mem_dedup.mpr hmD⟩
  obtain ⟨hInvF, hprocF, _⟩ := mkdirFold_spec D D D.dedup (fun x hx => hx) hInit
  have hMM : min_mkdir_set D =
      D.foldl (fun a q => if q ∈ a then removeAncestors a q else a) D.dedup := rfl
  refine ⟨?_, ?_, ?_⟩
  · intro d hd
    obtain ⟨m, hmD, hdm, hmax⟩ := exists_maximal_ext D d hd
    exact ⟨m, by rw [hMM]; exact hInvF.maxmem m hmD hmax, hdm⟩
  · intro x hx y hy hxy
    rw [hMM] at hx hy
    by_contra hne'
    have hxD := hInvF.sub x hx
    have hyD := hInvF.sub y hy
    have hxnil := hne x hxD
    have hx1 : 1 ≤ x.length :=
      Nat.one_le_iff_ne_zero.mpr (fun h => hxnil (List.length_eq_zero.mp h))
    have hlt : x.length < y.length :=
      lt_of_le_of_ne hxy.length_le (fun h => hne' (hxy.eq_of_length h))
    have haux : ∀ m : Nat, 1 ≤ m → m ≤ y.length - 1 →
        y.take (y.length - m) ∉
          D.foldl (fun a q => if q ∈ a then removeAncestors a q else a) D.dedup := by
      intro m
      induction m with
      | zero => intro h; omega
      | succ m ihm =>
        intro _ hm1
        by_cases hm0 : m = 0
        · subst hm0
          have hdl : y.take (y.length - 1) = y.dropLast := (List.dropLast_eq_take y).symm
          rw [hdl]
          exact hprocF y hyD
        · have hq := ihm (by omega) (by omega)
          have hq1 : 1 ≤ y.length - m := by omega
          have hqlt : y.length - m < y.length := by omega
          have hqD : y.take (y.length - m) ∈ D := hpc y hyD (y.length - m) hqlt hq1
          have hclean := hInvF.clean _ hqD hq
          rw [dropLast_take_eq y (y.length - m) (by omega)] at hclean
          have heq : y.length - m - 1 = y.length - (m + 1) := by omega
          rw [heq] at hclean
          exact hclean
    have hxeq : x = y.take x.length := List.prefix_iff_eq_take.mp hxy
    have hfin := haux (y.length - x.length) (by omega) (by omega)
    have hsub : y.length - (y.length - x.length) = x.length := by omega
    rw [hsub, ← hxeq] at hfin
    exact hfin hx
  · intro m hm
    rw [hMM] at hm
    exact hInvF.sub m hm

/-- Claim C6 amended witness: the cover conclusion evaluated on the
concrete collection `{a, a/b, a/c}`. -/
theorem claim6_min_mkdir_amended_witness :
    PrefixClosed [["a"], ["a", "b"], ["a", "c"]] ∧
      (∃ m ∈ min_mkdir_set [["a"], ["a", "b"], ["a", "c"]], (["a"] : FPath) <+: m) :=
  ⟨by decide,
   (claim6_min_mkdir_amended [["a"], ["a", "b"], ["a", "c"]] (by decide) (by decide)).1
     ["a"] (by decide)⟩

/-- Claim C8 counterexample: a zero-length caller buffer makes the text
encoder return 0 while data is still pending — the next read returns two
bytes — so a returned 0 is not durable, and 0 was returned although the
encoded buffer was nonempty. -/
theorem claim8_zero_buffer_counterexample :
    (textRead base16Params listRead (textEncNew [97]) 0 =
      some ([], ⟨[], [54, 49], []⟩)) ∧
    (textRead base16Params listRead ⟨[], [54, 49], []⟩ 2 =
      some ([54, 49], ⟨[], [], []⟩)) ∧
    (([54, 49] : List Byte) ≠ []) :=
  ⟨by decide, by decide, by decide⟩

/-- Claim C8 (amended): for reads with caller buffers of at least one
byte, once an Encryptor/Decryptor or the BASE16 text encoder/decoder
returns 0 every subsequent such read also returns 0; and when the text
codec returns 0 both of its buffers are empty and the inner source is at
end of stream (the decoder considered over well-formed even-length symbol
streams). -/
theorem claim8_durable_zero_amended :
    (∀ (E : List Byte → List Byte) (enc : Bool) (c s' : Cryptor (List Byte))
       (R : List Byte) (L : Nat) (Ls : List Nat),
       CryptorInv E enc ListInv c R → 1 ≤ L → (∀ l ∈ Ls, 1 ≤ l) →
       cryptorRead E enc listRead c L = some ([], s') →
       ∃ s'', runReads (cryptorRead E enc listRead) Ls s' =
         some (Ls.map (fun _ => ([] : List Byte)), s'')) ∧
    (∀ (t t' : TextEnc (List Byte)) (R : List Byte) (L : Nat) (Ls : List Nat),
       TextInv base16Params (fun _ => True) ListInv t R → 1 ≤ L → (∀ l ∈ Ls, 1 ≤ l) →
       textRead base16Params listRead t L = some ([], t') →
       (∃ t'', runReads (textRead base16Params listRead) Ls t' =
         some (Ls.map (fun _ => ([] : List Byte)), t'')) ∧
       t'.encBuf = [] ∧ t'.srcBuf = [] ∧ t'.source = []) ∧
    (∀ (t t' : TextEnc (List Byte)) (R : List Byte) (L : Nat) (Ls : List Nat),
       TextInv base16DecParams EvenLen ListInv t R → 1 ≤ L → (∀ l ∈ Ls, 1 ≤ l) →
       textRead base16DecParams listRead t L = some ([], t') →
       (∃ t'', runReads (textRead base16DecParams listRead) Ls t' =
         some (Ls.map (fun _ => ([] : List Byte)), t'')) ∧
       t'.encBuf = [] ∧ t'.srcBuf = [] ∧ t'.source = []) := by
  refine ⟨?_, ?_, ?_⟩
  · intro E enc c s' R L Ls hinv hL hLs hread
    have hsim := cryptor_sim E enc listRead_sim
    obtain ⟨hR, hinv'⟩ := read_zero_eof hsim hinv hL hread
    obtain ⟨s'', hrun, _⟩ := runReads_eof hsim Ls s' hinv' hLs
    exact ⟨s'', hrun⟩
  · intro t t' R L Ls hinv hL hLs hread
    have hsim := text_sim listRead_sim base16Params (fun _ => True) base16_ok
    obtain ⟨hR, hinv'⟩ := read_zero_eof hsim hinv hL hread
    obtain ⟨heb, hsb, hsrc⟩ := textInv_nil_state base16Params _ base16_ok t' hinv'
    obtain ⟨t'', hrun, _⟩ := runReads_eof hsim Ls t' hinv' hLs
    exact ⟨⟨t'', hrun⟩, heb, hsb, hsrc⟩
  · intro t t' R L Ls hinv hL hLs hread
    have hsim := text_sim listRead_sim base16DecParams EvenLen base16dec_ok
    obtain ⟨hR, hinv'⟩ := read_zero_eof hsim hinv hL hread
    obtain ⟨heb, hsb, hsrc⟩ := textInv_nil_state base16DecParams _ base16dec_ok t' hinv'
    obtain ⟨t'', hrun, _⟩ := runReads_eof hsim Ls t' hinv' hLs
    exact ⟨⟨t'', hrun⟩, heb, hsb, hsrc⟩

/-- Claim C8 amended witness: an exhausted Encryptor returns 0 and keeps
returning 0 over a concrete sequence of further reads. -/
theorem claim8_durable_zero_amended_witness :
    ((1 : Nat) ≤ 5) ∧
    (cryptorRead (demoAes demoKey) true listRead ⟨initCfb, []⟩ 5 =
      some ([], ⟨initCfb, []⟩)) ∧
    (∃ s'', runReads (cryptorRead (demoAes demoKey) true listRead) [3, 4] ⟨initCfb, []⟩ =
      some ([[], []], s'')) :=
  ⟨by decide, by decide,
   (claim8_durable_zero_amended).1 (demoAes demoKey) true ⟨initCfb, []⟩ ⟨initCfb, []⟩ [] 5
     [3, 4] ⟨[], rfl, rfl⟩ (by decide) (by decide) (by decide)⟩

/-- Claim C10: `path_ciphertexts` builds a path's ciphertext by pushing,
in component order, the ciphertexts of exactly those prefixes present in
the basename map; an absent prefix contributes no segment and raises no
error, and when some prefix is absent the ciphertext path has strictly
fewer segments than the path has components. -/
theorem claim10_prefix_walk :
    ∀ (bc : List (FPath × List Byte)) (p : FPath),
      (pathCiphertext bc p =
        (List.range p.length).flatMap
          (fun i => (List.lookup (p.take (i + 1)) bc).toList)) ∧
      ((pathCiphertext bc p).length =
        (List.range p.length).countP
          (fun i => (List.lookup (p.take (i + 1)) bc).isSome)) ∧
      ((∃ i, i < p.length ∧ List.lookup (p.take (i + 1)) bc = none) →
        (pathCiphertext bc p).length < p.length) := by
  intro bc p
  refine ⟨pathCiphertext_eq bc p, ?_, ?_⟩
  · rw [pathCiphertext_eq]
    exact length_flatMap_toList _ _
  · rintro ⟨i, hi, hnone⟩
    rw [pathCiphertext_eq, length_flatMap_toList]
    have hlen : (List.range p.length).length = p.length := List.length_range _
    have hcle : (List.range p.length).countP
        (fun i => (List.lookup (p.take (i + 1)) bc).isSome) ≤
        (List.range p.length).length := List.countP_le_length _
    by_contra hnot
    push_neg at hnot
    have heq : (List.range p.length).countP
        (fun i => (List.lookup (p.take (i + 1)) bc).isSome) =
        (List.range p.length).length := by omega
    have hall := List.countP_eq_length.mp heq i (List.mem_range.mpr hi)
    rw [hnone] at hall
    simp at hall

/-- Claim C10 witness: a concrete map missing the prefix `a/b` yields a
two-segment ciphertext path for the three-component path `a/b/c`. -/
theorem claim10_prefix_walk_witness :
    (∃ i, i < (["a", "b", "c"] : FPath).length ∧
      List.lookup ((["a", "b", "c"] : FPath).take (i + 1))
        [((["a"] : FPath), ([1] : List Byte)), (["a", "b", "c"], [2])] = none) ∧
    ((pathCiphertext [((["a"] : FPath), ([1] : List Byte)), (["a", "b", "c"], [2])]
        ["a", "b", "c"]).length < (["a", "b", "c"] : FPath).length) :=
  ⟨⟨1, by decide, by decide⟩,
   (claim10_prefix_walk [((["a"] : FPath), [1]), (["a", "b", "c"], [2])]
     ["a", "b", "c"]).2.2 ⟨1, by decide, by decide⟩⟩

end CryptSync
